import Mathlib

/-!
Verification development for the `mudproto` library (MUD protocol stack).

The definitions below are a shallow embedding of the Python sources under
`src/mudproto/`: byte strings become `List Nat` (each element a byte value
0..255), mutable objects become explicit state records, and callback
invocations (`on_command`, `on_subnegotiation`, forwarding application data
to the next handler, logger warnings) become elements of explicit event
lists.  Fatal `AssertionError`/`IndexError` paths are modelled with
`Option`, `none` marking the raised exception.
-/

namespace Mudproto

/-- A single byte value (0..255). -/
abbrev Byte := Nat

/-! ## Constants from `telnet_constants.py` -/

def NULL : Byte := 0
def LF : Byte := 10
def CR : Byte := 13
def SE : Byte := 240
def NOP : Byte := 241
def GA : Byte := 249
def SB : Byte := 250
def WILL : Byte := 251
def WONT : Byte := 252
def DO : Byte := 253
def DONT : Byte := 254
def IAC : Byte := 255

/-- `COMMAND_BYTES` from `telnet_constants.py`:
XEOF, SUSP, ABORT, EOR, NOP, DM, BRK, IP, AO, AYT, EC, EL, GA. -/
def COMMAND_BYTES : List Byte := [236, 237, 238, 239, 241, 242, 243, 244, 245, 246, 247, 248, 249]

/-- `NEGOTIATION_BYTES` from `telnet_constants.py`: WILL, WONT, DO, DONT. -/
def NEGOTIATION_BYTES : List Byte := [251, 252, 253, 254]

/-! ## Byte-string helpers

`bytes.partition(sep)` and `bytes.replace(old, new)` for the particular
single/double byte patterns used by `telnet.py`, embedded on `List Byte`.
-/

/-- `data.partition(bytes([b]))` for a single-byte separator: returns the
part before the first occurrence of `b`, whether `b` occurred, and the
part after it. -/
def partition1 (b : Byte) : List Byte → List Byte × Bool × List Byte
  | [] => ([], false, [])
  | x :: rest =>
    if x = b then ([], true, rest)
    else
      ((x :: (partition1 b rest).1, (partition1 b rest).2.1, (partition1 b rest).2.2))

/-- `data.replace(CR_LF, LF)`: leftmost, non-overlapping. -/
def replace_crlf_lf : List Byte → List Byte
  | [] => []
  | [b] => [b]
  | a :: b :: rest =>
    if a = 13 ∧ b = 10 then 10 :: replace_crlf_lf rest
    else a :: replace_crlf_lf (b :: rest)

/-- `data.replace(CR_NULL, CR)`: leftmost, non-overlapping. -/
def replace_crnul_cr : List Byte → List Byte
  | [] => []
  | [b] => [b]
  | a :: b :: rest =>
    if a = 13 ∧ b = 0 then 13 :: replace_crnul_cr rest
    else a :: replace_crnul_cr (b :: rest)

/-- `escape_iac` from `telnet.py`: `data.replace(IAC, IAC + IAC)`. -/
def escape_iac : List Byte → List Byte
  | [] => []
  | b :: rest => if b = 255 then 255 :: 255 :: escape_iac rest else b :: escape_iac rest

/-! ## Telnet state machine (`telnet.py`, class `TelnetProtocol`) -/

/-- `TelnetState` enum from `telnet.py`. -/
inductive TelnetState where
  | data
  | command
  | newline
  | negotiation
  | subnegotiation
  | subnegotiationEscaped
  deriving DecidableEq, Repr

/-- The mutable parsing fields of a `TelnetProtocol` instance:
`state`, `__app_data_buffer`, `__received_command_byte`,
`__received_subnegotiation_bytes`.  (`__received_command_byte` is only
meaningful in the `negotiation` state; the cleared value `b""` is
modelled as `0`.)  The per-option negotiation table is modelled
separately (see `OptionState` below): it does not influence parsing. -/
structure TelnetSt where
  state : TelnetState
  app_data_buffer : List Byte
  received_command_byte : Byte
  received_subnegotiation_bytes : List Byte
  deriving DecidableEq, Repr

/-- A fresh `TelnetProtocol` parser. -/
def telnetInit : TelnetSt :=
  { state := .data
    app_data_buffer := []
    received_command_byte := 0
    received_subnegotiation_bytes := [] }

/-- Observable effects of the parser: application bytes forwarded
downstream by `__flush_app_data`, an `on_command` dispatch, an
`on_subnegotiation` dispatch, or a `logger.warning` call. -/
inductive TelnetEvent where
  | appData (chunk : List Byte)
  | command (cmd : Byte) (opt : Option Byte)
  | subneg (opt : Byte) (payload : List Byte)
  | warn (msg : String)
  deriving DecidableEq, Repr

/-- `__flush_app_data`: forward the buffer downstream when non-empty. -/
def flush_app_data (st : TelnetSt) : TelnetSt × List TelnetEvent :=
  if st.app_data_buffer = [] then (st, [])
  else ({ st with app_data_buffer := [] }, [.appData st.app_data_buffer])

/-- `__process_data_state`: split at the first IAC, normalize line
endings of the prefix, buffer it, and transition. -/
def process_data_state (st : TelnetSt) (data : List Byte) : TelnetSt × List Byte :=
  let p := partition1 IAC data
  let app_data := p.1
  let separator := p.2.1
  let rest := p.2.2
  if separator then
    ({ st with
        state := .command
        app_data_buffer := st.app_data_buffer ++ replace_crnul_cr (replace_crlf_lf app_data) },
      rest)
  else if app_data.getLast? = some CR then
    ({ st with
        state := .newline
        app_data_buffer :=
          st.app_data_buffer ++ replace_crnul_cr (replace_crlf_lf app_data.dropLast) },
      rest)
  else
    ({ st with app_data_buffer := st.app_data_buffer ++ replace_crnul_cr (replace_crlf_lf app_data) },
      rest)

/-- `__process_command_state`. -/
def process_command_state (st : TelnetSt) (byte : Byte) : TelnetSt × List TelnetEvent :=
  if byte = IAC then
    ({ st with state := .data, app_data_buffer := st.app_data_buffer ++ [byte] }, [])
  else if byte = SE then
    ({ st with state := .data }, [.warn "IAC SE received outside of subnegotiation."])
  else if byte = SB then
    ({ st with state := .subnegotiation, received_subnegotiation_bytes := [] }, [])
  else if byte ∈ COMMAND_BYTES then
    let f := flush_app_data { st with state := .data }
    (f.1, f.2 ++ [.command byte none])
  else if byte ∈ NEGOTIATION_BYTES then
    ({ st with state := .negotiation, received_command_byte := byte }, [])
  else
    ({ st with state := .data }, [.warn "Unknown Telnet command received."])

/-- `__process_negotiation_state`. -/
def process_negotiation_state (st : TelnetSt) (byte : Byte) : TelnetSt × List TelnetEvent :=
  let command := st.received_command_byte
  let f := flush_app_data { st with state := .data, received_command_byte := 0 }
  (f.1, f.2 ++ [.command command (some byte)])

/-- `__process_newline_state`. -/
def process_newline_state (st : TelnetSt) (byte : Byte) : TelnetSt × List TelnetEvent :=
  if byte = LF then
    ({ st with state := .data, app_data_buffer := st.app_data_buffer ++ [byte] }, [])
  else if byte = NULL then
    ({ st with state := .data, app_data_buffer := st.app_data_buffer ++ [CR] }, [])
  else if byte = IAC then
    ({ st with state := .command, app_data_buffer := st.app_data_buffer ++ [CR] }, [])
  else
    ({ st with state := .data, app_data_buffer := st.app_data_buffer ++ [CR, byte] }, [])

/-- `__process_subnegotiation_state`. -/
def process_subnegotiation_state (st : TelnetSt) (byte : Byte) : TelnetSt :=
  if byte = IAC then
    { st with state := .subnegotiationEscaped }
  else
    { st with received_subnegotiation_bytes := st.received_subnegotiation_bytes ++ [byte] }

/-- `__process_subnegotiation_escaped_state`. -/
def process_subnegotiation_escaped_state (st : TelnetSt) (byte : Byte) :
    TelnetSt × List TelnetEvent :=
  if byte = SE then
    let f := flush_app_data { st with state := .data, received_subnegotiation_bytes := [] }
    let commands := st.received_subnegotiation_bytes
    match commands with
    | [] => (f.1, f.2 ++ [.warn "Empty subnegotiation received."])
    | option :: payload => (f.1, f.2 ++ [.subneg option payload])
  else
    ({ st with
        state := .subnegotiation
        received_subnegotiation_bytes := st.received_subnegotiation_bytes ++ [byte] }, [])

theorem partition1_rest_length_lt (b : Byte) (data : List Byte) (h : data ≠ []) :
    (partition1 b data).2.2.length < data.length := by
  induction data with
  | nil => exact absurd rfl h
  | cons x rest ih =>
    by_cases hx : x = b
    · simp [partition1, hx]
    · rcases rest with - | ⟨y, rest'⟩
      · simp [partition1, hx]
      · have hr := ih (by simp)
        simp only [partition1, if_neg hx, List.length_cons] at hr ⊢
        omega

theorem process_data_state_rest (st : TelnetSt) (data : List Byte) :
    (process_data_state st data).2 = (partition1 IAC data).2.2 := by
  simp only [process_data_state]
  split
  · rfl
  · split <;> rfl

/-- The `while data:` loop of `on_data_received` (everything except the
final flush).  Every iteration of the source loop consumes at least one
byte of `data`, so the loop is run here on structural fuel; any
`fuel ≥ data.length` yields the loop's result (see `telnetLoop_fuel`),
and `telnetLoop` below instantiates it that way. -/
def telnetLoopF : Nat → TelnetSt → List Byte → TelnetSt × List TelnetEvent
  | _, st, [] => (st, [])
  | 0, st, _ :: _ => (st, [])
  | fuel + 1, st, byte :: rest =>
    match st.state with
    | .data =>
      telnetLoopF fuel (process_data_state st (byte :: rest)).1
        (process_data_state st (byte :: rest)).2
    | .command =>
      let p := process_command_state st byte
      let r := telnetLoopF fuel p.1 rest
      (r.1, p.2 ++ r.2)
    | .negotiation =>
      let p := process_negotiation_state st byte
      let r := telnetLoopF fuel p.1 rest
      (r.1, p.2 ++ r.2)
    | .newline =>
      let p := process_newline_state st byte
      let r := telnetLoopF fuel p.1 rest
      (r.1, p.2 ++ r.2)
    | .subnegotiation =>
      telnetLoopF fuel (process_subnegotiation_state st byte) rest
    | .subnegotiationEscaped =>
      let p := process_subnegotiation_escaped_state st byte
      let r := telnetLoopF fuel p.1 rest
      (r.1, p.2 ++ r.2)

/-- The loop result does not depend on the fuel, provided the fuel covers
the length of the remaining data. -/
theorem telnetLoop_fuel :
    ∀ (m : Nat) (n : Nat) (st : TelnetSt) (data : List Byte),
      data.length ≤ m → data.length ≤ n → telnetLoopF m st data = telnetLoopF n st data := by
  intro m
  induction m with
  | zero =>
    intro n st data hm _
    have : data = [] := List.eq_nil_of_length_eq_zero (Nat.le_zero.mp hm)
    subst this
    cases n <;> rfl
  | succ m ih =>
    intro n st data hm hn
    cases data with
    | nil => cases n <;> rfl
    | cons byte rest =>
      cases n with
      | zero => exact absurd hn (by simp)
      | succ n =>
        simp only [List.length_cons, Nat.succ_le_succ_iff] at hm hn
        simp only [telnetLoopF]
        cases hs : st.state
        case data =>
          have hlen : (process_data_state st (byte :: rest)).2.length ≤ m := by
            rw [process_data_state_rest]
            have := partition1_rest_length_lt IAC (byte :: rest) (by simp)
            simp only [List.length_cons] at this
            omega
          have hlen' : (process_data_state st (byte :: rest)).2.length ≤ n := by
            rw [process_data_state_rest]
            have := partition1_rest_length_lt IAC (byte :: rest) (by simp)
            simp only [List.length_cons] at this
            omega
          exact ih n _ _ hlen hlen'
        all_goals simp only [ih n _ rest hm hn]

/-- The `while data:` loop of `on_data_received`, with the fuel fixed at
its sufficient value. -/
def telnetLoop (st : TelnetSt) (data : List Byte) : TelnetSt × List TelnetEvent :=
  telnetLoopF data.length st data

/-- `TelnetProtocol.on_data_received`: the parsing loop followed by the
final `__flush_app_data`. -/
def on_data_received (st : TelnetSt) (data : List Byte) : TelnetSt × List TelnetEvent :=
  let r := telnetLoop st data
  let f := flush_app_data r.1
  (f.1, r.2 ++ f.2)

/-- Feed `data` one byte per `on_data_received` call, concatenating the
emitted events. -/
def feedBytes (st : TelnetSt) : List Byte → TelnetSt × List TelnetEvent
  | [] => (st, [])
  | b :: rest =>
    let p := on_data_received st [b]
    let r := feedBytes p.1 rest
    (r.1, p.2 ++ r.2)

example : on_data_received telnetInit [72, 105, 255, 255, 33] =
    (telnetInit, [.appData [72, 105, 255, 33]]) := by decide

example : on_data_received telnetInit [65, 13, 10, 66] =
    (telnetInit, [.appData [65, 10, 66]]) := by decide

/-! ### Unfolding equations for `telnetLoop` / `on_data_received` -/

/-- Replace the application-data buffer of a parser state. -/
def setBuf (st : TelnetSt) (buf : List Byte) : TelnetSt := { st with app_data_buffer := buf }

theorem setBuf_self (st : TelnetSt) : setBuf st st.app_data_buffer = st := by
  cases st
  rfl

theorem setBuf_setBuf (st : TelnetSt) (a b : List Byte) : setBuf (setBuf st a) b = setBuf st b :=
  rfl

/-- If `chunk` is non-empty this is `[.appData chunk]`, otherwise `[]`;
the shape of everything `__flush_app_data` emits. -/
def appEv (chunk : List Byte) : List TelnetEvent :=
  if chunk = [] then [] else [.appData chunk]

theorem flush_app_data_eq (st : TelnetSt) :
    flush_app_data st = (setBuf st [], appEv st.app_data_buffer) := by
  by_cases h : st.app_data_buffer = []
  · simp [flush_app_data, appEv, h, setBuf]
    cases st
    simp_all
  · simp [flush_app_data, appEv, h, setBuf]

theorem telnetLoop_nil (st : TelnetSt) : telnetLoop st [] = (st, []) := rfl

theorem telnetLoop_cons_data {st : TelnetSt} (hs : st.state = .data) (byte : Byte)
    (rest : List Byte) :
    telnetLoop st (byte :: rest) =
      telnetLoop (process_data_state st (byte :: rest)).1
        (process_data_state st (byte :: rest)).2 := by
  show telnetLoopF (rest.length + 1) st (byte :: rest) = _
  rw [telnetLoopF]
  rw [hs]
  apply telnetLoop_fuel
  · rw [process_data_state_rest]
    have := partition1_rest_length_lt IAC (byte :: rest) (by simp)
    simp only [List.length_cons] at this
    omega
  · exact Nat.le_refl _

theorem telnetLoop_cons_command {st : TelnetSt} (hs : st.state = .command) (byte : Byte)
    (rest : List Byte) :
    telnetLoop st (byte :: rest) =
      ((telnetLoop (process_command_state st byte).1 rest).1,
        (process_command_state st byte).2 ++ (telnetLoop (process_command_state st byte).1 rest).2) := by
  show telnetLoopF (rest.length + 1) st (byte :: rest) = _
  rw [telnetLoopF]
  rw [hs]
  rfl

theorem telnetLoop_cons_negotiation {st : TelnetSt} (hs : st.state = .negotiation) (byte : Byte)
    (rest : List Byte) :
    telnetLoop st (byte :: rest) =
      ((telnetLoop (process_negotiation_state st byte).1 rest).1,
        (process_negotiation_state st byte).2 ++
          (telnetLoop (process_negotiation_state st byte).1 rest).2) := by
  show telnetLoopF (rest.length + 1) st (byte :: rest) = _
  rw [telnetLoopF]
  rw [hs]
  rfl

theorem telnetLoop_cons_newline {st : TelnetSt} (hs : st.state = .newline) (byte : Byte)
    (rest : List Byte) :
    telnetLoop st (byte :: rest) =
      ((telnetLoop (process_newline_state st byte).1 rest).1,
        (process_newline_state st byte).2 ++ (telnetLoop (process_newline_state st byte).1 rest).2) := by
  show telnetLoopF (rest.length + 1) st (byte :: rest) = _
  rw [telnetLoopF]
  rw [hs]
  rfl

theorem telnetLoop_cons_subnegotiation {st : TelnetSt} (hs : st.state = .subnegotiation)
    (byte : Byte) (rest : List Byte) :
    telnetLoop st (byte :: rest) = telnetLoop (process_subnegotiation_state st byte) rest := by
  show telnetLoopF (rest.length + 1) st (byte :: rest) = _
  rw [telnetLoopF]
  rw [hs]
  rfl

theorem telnetLoop_cons_subnegotiationEscaped {st : TelnetSt}
    (hs : st.state = .subnegotiationEscaped) (byte : Byte) (rest : List Byte) :
    telnetLoop st (byte :: rest) =
      ((telnetLoop (process_subnegotiation_escaped_state st byte).1 rest).1,
        (process_subnegotiation_escaped_state st byte).2 ++
          (telnetLoop (process_subnegotiation_escaped_state st byte).1 rest).2) := by
  show telnetLoopF (rest.length + 1) st (byte :: rest) = _
  rw [telnetLoopF]
  rw [hs]
  rfl

theorem odr_nil (st : TelnetSt) :
    on_data_received st [] = (setBuf st [], appEv st.app_data_buffer) := by
  simp [on_data_received, telnetLoop_nil, flush_app_data_eq]

theorem odr_data_step {st : TelnetSt} (hs : st.state = .data) (byte : Byte) (rest : List Byte) :
    on_data_received st (byte :: rest) =
      on_data_received (process_data_state st (byte :: rest)).1
        (process_data_state st (byte :: rest)).2 := by
  simp [on_data_received, telnetLoop_cons_data hs]

theorem odr_cons_command {st : TelnetSt} (hs : st.state = .command) (byte : Byte)
    (rest : List Byte) :
    on_data_received st (byte :: rest) =
      ((on_data_received (process_command_state st byte).1 rest).1,
        (process_command_state st byte).2 ++
          (on_data_received (process_command_state st byte).1 rest).2) := by
  simp [on_data_received, telnetLoop_cons_command hs, List.append_assoc]

theorem odr_cons_negotiation {st : TelnetSt} (hs : st.state = .negotiation) (byte : Byte)
    (rest : List Byte) :
    on_data_received st (byte :: rest) =
      ((on_data_received (process_negotiation_state st byte).1 rest).1,
        (process_negotiation_state st byte).2 ++
          (on_data_received (process_negotiation_state st byte).1 rest).2) := by
  simp [on_data_received, telnetLoop_cons_negotiation hs, List.append_assoc]

theorem odr_cons_newline {st : TelnetSt} (hs : st.state = .newline) (byte : Byte)
    (rest : List Byte) :
    on_data_received st (byte :: rest) =
      ((on_data_received (process_newline_state st byte).1 rest).1,
        (process_newline_state st byte).2 ++
          (on_data_received (process_newline_state st byte).1 rest).2) := by
  simp [on_data_received, telnetLoop_cons_newline hs, List.append_assoc]

theorem odr_cons_subnegotiation {st : TelnetSt} (hs : st.state = .subnegotiation) (byte : Byte)
    (rest : List Byte) :
    on_data_received st (byte :: rest) =
      on_data_received (process_subnegotiation_state st byte) rest := by
  simp [on_data_received, telnetLoop_cons_subnegotiation hs]

theorem odr_cons_subnegotiationEscaped {st : TelnetSt} (hs : st.state = .subnegotiationEscaped)
    (byte : Byte) (rest : List Byte) :
    on_data_received st (byte :: rest) =
      ((on_data_received (process_subnegotiation_escaped_state st byte).1 rest).1,
        (process_subnegotiation_escaped_state st byte).2 ++
          (on_data_received (process_subnegotiation_escaped_state st byte).1 rest).2) := by
  simp [on_data_received, telnetLoop_cons_subnegotiationEscaped hs, List.append_assoc]

/-! ### Normalizing event streams

Claim C2 compares the concatenated application bytes, the commands and
the subnegotiations of two runs.  `normCore` realizes this comparison:
warnings are dropped, and adjacent application-data chunks are merged
(with an accumulator), so that differences in chunk boundaries do not
count while differences in content or in the interleaving with
command/subnegotiation dispatches do. -/

def normAux (acc : List Byte) : List TelnetEvent → List TelnetEvent
  | [] => appEv acc
  | .appData a :: t => normAux (acc ++ a) t
  | .warn _ :: t => normAux acc t
  | e :: t => appEv acc ++ e :: normAux [] t

/-- Normalized view of an event stream: application bytes merged,
warnings dropped. -/
def normCore (evs : List TelnetEvent) : List TelnetEvent := normAux [] evs

/-- Merge a pending application-byte prefix into a normalized stream. -/
def appPrepend (acc : List Byte) : List TelnetEvent → List TelnetEvent
  | .appData a :: t => .appData (acc ++ a) :: t
  | l => appEv acc ++ l

theorem normAux_appEv (acc p : List Byte) (t : List TelnetEvent) :
    normAux acc (appEv p ++ t) = normAux (acc ++ p) t := by
  by_cases hp : p = []
  · simp [appEv, hp]
  · simp [appEv, hp, normAux]

theorem normAux_warn (acc : List Byte) (m : String) (t : List TelnetEvent) :
    normAux acc (.warn m :: t) = normAux acc t := rfl

theorem appPrepend_appPrepend (x y : List Byte) (l : List TelnetEvent) :
    appPrepend x (appPrepend y l) = appPrepend (x ++ y) l := by
  cases l with
  | nil =>
    by_cases hy : y = []
    · simp [appPrepend, appEv, hy]
    · by_cases hx : x = []
      · simp [appPrepend, appEv, hy, hx]
      · simp [appPrepend, appEv, hy, hx]
  | cons e t =>
    cases e with
    | appData a => simp [appPrepend]
    | command c o =>
      by_cases hy : y = []
      · simp [appPrepend, appEv, hy]
      · simp [appPrepend, appEv, hy]
    | subneg o d =>
      by_cases hy : y = []
      · simp [appPrepend, appEv, hy]
      · simp [appPrepend, appEv, hy]
    | warn m =>
      by_cases hy : y = []
      · simp [appPrepend, appEv, hy]
      · simp [appPrepend, appEv, hy]

theorem normAux_appPrepend (evs : List TelnetEvent) :
    ∀ acc, normAux acc evs = appPrepend acc (normAux [] evs) := by
  induction evs with
  | nil =>
    intro acc
    simp [normAux, appPrepend, appEv]
  | cons e t ih =>
    intro acc
    cases e with
    | appData a =>
      show normAux (acc ++ a) t = appPrepend acc (normAux ([] ++ a) t)
      rw [ih (acc ++ a), List.nil_append, ih a, appPrepend_appPrepend]
    | warn m =>
      show normAux acc t = appPrepend acc (normAux [] t)
      exact ih acc
    | command c o =>
      show appEv acc ++ _ :: normAux [] t = appPrepend acc (appEv [] ++ _ :: normAux [] t)
      simp [appEv, appPrepend]
    | subneg o d =>
      show appEv acc ++ _ :: normAux [] t = appPrepend acc (appEv [] ++ _ :: normAux [] t)
      simp [appEv, appPrepend]

theorem normAux_congr {y1 y2 : List TelnetEvent} (h : normCore y1 = normCore y2) :
    ∀ (x : List TelnetEvent) (acc : List Byte), normAux acc (x ++ y1) = normAux acc (x ++ y2) := by
  intro x
  induction x with
  | nil =>
    intro acc
    rw [List.nil_append, List.nil_append, normAux_appPrepend, normAux_appPrepend y2]
    exact congrArg (appPrepend acc) h
  | cons e t ih =>
    intro acc
    cases e with
    | appData a =>
      show normAux (acc ++ a) (t ++ y1) = normAux (acc ++ a) (t ++ y2)
      exact ih (acc ++ a)
    | warn m =>
      show normAux acc (t ++ y1) = normAux acc (t ++ y2)
      exact ih acc
    | command c o =>
      show appEv acc ++ _ :: normAux [] (t ++ y1) = appEv acc ++ _ :: normAux [] (t ++ y2)
      rw [ih []]
    | subneg o d =>
      show appEv acc ++ _ :: normAux [] (t ++ y1) = appEv acc ++ _ :: normAux [] (t ++ y2)
      rw [ih []]

theorem normCore_flush_branch (pre b0 : List Byte) (d k : List TelnetEvent) :
    normCore ((appEv (pre ++ b0) ++ d) ++ k) = normCore (appEv pre ++ ((appEv b0 ++ d) ++ k)) := by
  show normAux [] _ = normAux [] _
  rw [List.append_assoc, normAux_appEv]
  conv_rhs => rw [normAux_appEv]
  rw [List.append_assoc, normAux_appEv]
  simp

theorem normCore_warn_branch (pre : List Byte) (m : String) {evL evR : List TelnetEvent}
    (h : normCore evL = normCore (appEv pre ++ evR)) :
    normCore (.warn m :: evL) = normCore (appEv pre ++ (.warn m :: evR)) := by
  show normAux [] _ = normAux [] _
  rw [normAux_warn, normAux_appEv, normAux_warn]
  have h' : normAux [] evL = normAux [] (appEv pre ++ evR) := h
  rw [h', normAux_appEv]

/-- Split at the first IAC and normalize line endings: the application
bytes a `__process_data_state` call appends to the buffer.  (The
appended bytes, new parser state, and leftover data do not depend on the
buffer already held.) -/
def dataChunkOut (data : List Byte) : List Byte :=
  if (partition1 IAC data).2.1 then replace_crnul_cr (replace_crlf_lf (partition1 IAC data).1)
  else if (partition1 IAC data).1.getLast? = some CR then
    replace_crnul_cr (replace_crlf_lf (partition1 IAC data).1.dropLast)
  else replace_crnul_cr (replace_crlf_lf (partition1 IAC data).1)

/-- The parser state after a `__process_data_state` call. -/
def dataChunkState (data : List Byte) : TelnetState :=
  if (partition1 IAC data).2.1 then .command
  else if (partition1 IAC data).1.getLast? = some CR then .newline
  else .data

theorem process_data_state_eq {st : TelnetSt} (hs : st.state = .data) (data : List Byte) :
    process_data_state st data =
      ({ st with
          state := dataChunkState data
          app_data_buffer := st.app_data_buffer ++ dataChunkOut data },
        (partition1 IAC data).2.2) := by
  obtain ⟨s0, buf0, cmd0, sub0⟩ := st
  subst hs
  by_cases h1 : (partition1 IAC data).2.1
  · simp [process_data_state, dataChunkState, dataChunkOut, h1]
  · by_cases h2 : (partition1 IAC data).1.getLast? = some CR
    · simp [process_data_state, dataChunkState, dataChunkOut, h1, h2]
    · simp [process_data_state, dataChunkState, dataChunkOut, h1, h2]

/-- Starting a call with extra bytes `pre` at the front of the
application-data buffer yields the same final state, and the same
normalized events with `pre` emitted first.  (`on_data_received` ends in
a flush, so the final buffer is empty either way.) -/
theorem prebuf :
    ∀ (n : Nat) (data : List Byte), data.length ≤ n →
      ∀ (st : TelnetSt) (pre b0 : List Byte),
        (on_data_received (setBuf st (pre ++ b0)) data).1 =
          (on_data_received (setBuf st b0) data).1 ∧
        normCore (on_data_received (setBuf st (pre ++ b0)) data).2 =
          normCore (appEv pre ++ (on_data_received (setBuf st b0) data).2) := by
  have base : ∀ (st : TelnetSt) (pre b0 : List Byte),
      (on_data_received (setBuf st (pre ++ b0)) []).1 =
        (on_data_received (setBuf st b0) []).1 ∧
      normCore (on_data_received (setBuf st (pre ++ b0)) []).2 =
        normCore (appEv pre ++ (on_data_received (setBuf st b0) []).2) := by
    intro st pre b0
    rw [odr_nil, odr_nil]
    refine ⟨rfl, ?_⟩
    show normAux [] (appEv (pre ++ b0)) = normAux [] (appEv pre ++ appEv b0)
    rw [← List.append_nil (appEv pre ++ appEv b0), List.append_assoc, normAux_appEv,
      normAux_appEv, ← List.append_nil (appEv (pre ++ b0)), normAux_appEv]
    simp
  intro n
  induction n with
  | zero =>
    intro data hlen st pre b0
    have hd : data = [] := List.eq_nil_of_length_eq_zero (Nat.le_zero.mp hlen)
    subst hd
    exact base st pre b0
  | succ m ih =>
    intro data hlen st pre b0
    cases data with
    | nil => exact base st pre b0
    | cons byte rest =>
      have hrest : rest.length ≤ m := by
        simpa using hlen
      obtain ⟨s0, buf0, cmd0, sub0⟩ := st
      cases s0 with
      | data =>
        rw [odr_data_step rfl, odr_data_step rfl, process_data_state_eq rfl,
          process_data_state_eq rfl]
        have hlen2 : (partition1 IAC (byte :: rest)).2.2.length ≤ m := by
          have := partition1_rest_length_lt IAC (byte :: rest) (by simp)
          simp only [List.length_cons] at this
          omega
        have hih := ih (partition1 IAC (byte :: rest)).2.2 hlen2
          ⟨dataChunkState (byte :: rest), [], cmd0, sub0⟩ pre
          (b0 ++ dataChunkOut (byte :: rest))
        simp only [setBuf] at hih ⊢
        simpa [List.append_assoc] using hih
      | command =>
        rw [odr_cons_command rfl, odr_cons_command rfl]
        by_cases hb1 : byte = IAC
        · subst hb1
          simp only [process_command_state, if_pos rfl]
          have hih := ih rest hrest ⟨.data, [], cmd0, sub0⟩ pre (b0 ++ [IAC])
          simp only [setBuf] at hih ⊢
          simpa [List.append_assoc] using hih
        · by_cases hb2 : byte = SE
          · subst hb2
            simp only [process_command_state, if_neg hb1, if_pos rfl]
            have hih := ih rest hrest ⟨.data, [], cmd0, sub0⟩ pre b0
            simp only [setBuf] at hih ⊢
            exact ⟨hih.1, normCore_warn_branch pre _ hih.2⟩
          · by_cases hb3 : byte = SB
            · subst hb3
              simp only [process_command_state, if_neg hb1, if_neg hb2, if_pos rfl]
              have hih := ih rest hrest ⟨.subnegotiation, [], cmd0, []⟩ pre b0
              simp only [setBuf] at hih ⊢
              simpa using hih
            · by_cases hb4 : byte ∈ COMMAND_BYTES
              · simp only [process_command_state, if_neg hb1, if_neg hb2, if_neg hb3,
                  if_pos hb4, flush_app_data_eq]
                simp only [setBuf]
                exact ⟨by trivial, normCore_flush_branch pre b0 _ _⟩
              · by_cases hb5 : byte ∈ NEGOTIATION_BYTES
                · simp only [process_command_state, if_neg hb1, if_neg hb2, if_neg hb3,
                    if_neg hb4, if_pos hb5]
                  have hih := ih rest hrest ⟨.negotiation, [], byte, sub0⟩ pre b0
                  simp only [setBuf] at hih ⊢
                  simpa using hih
                · simp only [process_command_state, if_neg hb1, if_neg hb2, if_neg hb3,
                    if_neg hb4, if_neg hb5]
                  have hih := ih rest hrest ⟨.data, [], cmd0, sub0⟩ pre b0
                  simp only [setBuf] at hih ⊢
                  exact ⟨hih.1, normCore_warn_branch pre _ hih.2⟩
      | newline =>
        rw [odr_cons_newline rfl, odr_cons_newline rfl]
        by_cases hb1 : byte = LF
        · subst hb1
          simp only [process_newline_state, if_pos rfl]
          have hih := ih rest hrest ⟨.data, [], cmd0, sub0⟩ pre (b0 ++ [LF])
          simp only [setBuf] at hih ⊢
          simpa [List.append_assoc] using hih
        · by_cases hb2 : byte = NULL
          · subst hb2
            simp only [process_newline_state, if_neg hb1, if_pos rfl]
            have hih := ih rest hrest ⟨.data, [], cmd0, sub0⟩ pre (b0 ++ [CR])
            simp only [setBuf] at hih ⊢
            simpa [List.append_assoc] using hih
          · by_cases hb3 : byte = IAC
            · subst hb3
              simp only [process_newline_state, if_neg hb1, if_neg hb2, if_pos rfl]
              have hih := ih rest hrest ⟨.command, [], cmd0, sub0⟩ pre (b0 ++ [CR])
              simp only [setBuf] at hih ⊢
              simpa [List.append_assoc] using hih
            · simp only [process_newline_state, if_neg hb1, if_neg hb2, if_neg hb3]
              have hih := ih rest hrest ⟨.data, [], cmd0, sub0⟩ pre (b0 ++ [CR, byte])
              simp only [setBuf] at hih ⊢
              simpa [List.append_assoc] using hih
      | negotiation =>
        rw [odr_cons_negotiation rfl, odr_cons_negotiation rfl]
        simp only [process_negotiation_state, flush_app_data_eq]
        simp only [setBuf]
        exact ⟨by trivial, normCore_flush_branch pre b0 _ _⟩
      | subnegotiation =>
        rw [odr_cons_subnegotiation rfl, odr_cons_subnegotiation rfl]
        by_cases hb1 : byte = IAC
        · subst hb1
          simp only [process_subnegotiation_state, if_pos rfl]
          have hih := ih rest hrest ⟨.subnegotiationEscaped, [], cmd0, sub0⟩ pre b0
          simp only [setBuf] at hih ⊢
          simpa using hih
        · simp only [process_subnegotiation_state, if_neg hb1]
          have hih := ih rest hrest ⟨.subnegotiation, [], cmd0, sub0 ++ [byte]⟩ pre b0
          simp only [setBuf] at hih ⊢
          simpa using hih
      | subnegotiationEscaped =>
        rw [odr_cons_subnegotiationEscaped rfl, odr_cons_subnegotiationEscaped rfl]
        by_cases hb1 : byte = SE
        · subst hb1
          cases sub0 with
          | nil =>
            simp only [process_subnegotiation_escaped_state, if_pos rfl, flush_app_data_eq]
            simp only [setBuf]
            exact ⟨by trivial, normCore_flush_branch pre b0 _ _⟩
          | cons o payload =>
            simp only [process_subnegotiation_escaped_state, if_pos rfl, flush_app_data_eq]
            simp only [setBuf]
            exact ⟨by trivial, normCore_flush_branch pre b0 _ _⟩
        · simp only [process_subnegotiation_escaped_state, if_neg hb1]
          have hih := ih rest hrest ⟨.subnegotiation, [], cmd0, sub0 ++ [byte]⟩ pre b0
          simp only [setBuf] at hih ⊢
          simpa using hih

/-! ### Distributing the chunked DATA-state step over its first bytes -/

/-- The composite line-ending normalization applied by
`__process_data_state`: `CRLF → LF` then `CR NUL → CR`. -/
def norm2 (l : List Byte) : List Byte := replace_crnul_cr (replace_crlf_lf l)

theorem replace_crlf_lf_cons {b : Byte} (hb : b ≠ 13) (l : List Byte) :
    replace_crlf_lf (b :: l) = b :: replace_crlf_lf l := by
  cases l with
  | nil => rfl
  | cons c t => simp [replace_crlf_lf, hb]

theorem replace_crnul_cr_cons {b : Byte} (hb : b ≠ 13) (l : List Byte) :
    replace_crnul_cr (b :: l) = b :: replace_crnul_cr l := by
  cases l with
  | nil => rfl
  | cons c t => simp [replace_crnul_cr, hb]

theorem norm2_cons {b : Byte} (hb : b ≠ 13) (l : List Byte) :
    norm2 (b :: l) = b :: norm2 l := by
  rw [norm2, replace_crlf_lf_cons hb, replace_crnul_cr_cons hb]
  rfl

theorem norm2_cr_lf (l : List Byte) : norm2 (13 :: 10 :: l) = 10 :: norm2 l := by
  rw [norm2]
  show replace_crnul_cr (if (13 : Byte) = 13 ∧ (10 : Byte) = 10 then 10 :: replace_crlf_lf l
    else _) = _
  rw [if_pos ⟨rfl, rfl⟩, replace_crnul_cr_cons (by decide)]
  rfl

theorem norm2_cr_nul (l : List Byte) : norm2 (13 :: 0 :: l) = 13 :: norm2 l := by
  rw [norm2]
  have h1 : replace_crlf_lf (13 :: 0 :: l) = 13 :: 0 :: replace_crlf_lf l := by
    show (if (13 : Byte) = 13 ∧ (0 : Byte) = 10 then _ else 13 :: replace_crlf_lf (0 :: l)) = _
    rw [if_neg (by decide), replace_crlf_lf_cons (by decide)]
  rw [h1]
  show (if (13 : Byte) = 13 ∧ (0 : Byte) = 0 then 13 :: replace_crnul_cr (replace_crlf_lf l)
    else _) = _
  rw [if_pos ⟨rfl, rfl⟩]
  rfl

theorem norm2_cr_other {y : Byte} (h10 : y ≠ 10) (h0 : y ≠ 0) (h13 : y ≠ 13) (l : List Byte) :
    norm2 (13 :: y :: l) = 13 :: y :: norm2 l := by
  rw [norm2]
  have h1 : replace_crlf_lf (13 :: y :: l) = 13 :: replace_crlf_lf (y :: l) := by
    show (if (13 : Byte) = 13 ∧ y = 10 then _ else _) = _
    rw [if_neg (by simp [h10])]
  rw [h1, replace_crlf_lf_cons h13]
  show (if (13 : Byte) = 13 ∧ y = 0 then _ else _) = _
  rw [if_neg (by simp [h0]), replace_crnul_cr_cons h13]
  rfl

theorem norm2_nil : norm2 [] = [] := rfl

theorem partition1_cons_eq (s : Byte) (l : List Byte) : partition1 s (s :: l) = ([], true, l) := by
  simp [partition1]

theorem partition1_cons_ne (s : Byte) {b : Byte} (hb : b ≠ s) (l : List Byte) :
    partition1 s (b :: l) =
      (b :: (partition1 s l).1, (partition1 s l).2.1, (partition1 s l).2.2) := by
  simp [partition1, hb]

theorem partition1_not_found {s : Byte} :
    ∀ {l : List Byte}, (partition1 s l).2.1 = false → (partition1 s l).1 = l ∧ (partition1 s l).2.2 = [] := by
  intro l
  induction l with
  | nil => intro _; exact ⟨rfl, rfl⟩
  | cons x rest ih =>
    intro h
    by_cases hx : x = s
    · rw [hx, partition1_cons_eq] at h
      simp at h
    · rw [partition1_cons_ne s hx] at h ⊢
      obtain ⟨h1, h2⟩ := ih h
      exact ⟨by rw [h1], h2⟩

/-- Dropping one leading ordinary byte (neither CR nor IAC) out of a
DATA-state chunk step. -/
theorem dataChunk_cons {b : Byte} (hb13 : b ≠ 13) (hb255 : b ≠ 255) (rest : List Byte) :
    dataChunkState (b :: rest) = dataChunkState rest ∧
    dataChunkOut (b :: rest) = b :: dataChunkOut rest ∧
    (partition1 IAC (b :: rest)).2.2 = (partition1 IAC rest).2.2 := by
  have hpart := partition1_cons_ne IAC hb255 rest
  cases hf : (partition1 IAC rest).2.1
  · obtain ⟨hpre, hrest⟩ := partition1_not_found hf
    by_cases hcr : rest.getLast? = some CR
    · have hne : rest ≠ [] := by
        intro h
        rw [h] at hcr
        simp at hcr
      have hcr' : (b :: rest).getLast? = some CR := by
        cases rest with
        | nil => exact absurd rfl hne
        | cons c t => rw [List.getLast?_cons_cons]; exact hcr
      refine ⟨?_, ?_, ?_⟩
      · simp only [dataChunkState, hpart, hf, hpre, hcr, hcr']
      · simp only [dataChunkOut, hpart, hf, hpre, hcr, hcr']
        simp only [Bool.false_eq_true, if_false, if_pos rfl]
        cases rest with
        | nil => exact absurd rfl hne
        | cons c t =>
          have hd : (b :: c :: t).dropLast = b :: (c :: t).dropLast := rfl
          rw [hd]
          exact norm2_cons hb13 _
      · rw [hpart]
    · have hcr' : ¬((b :: rest).getLast? = some CR) := by
        cases rest with
        | nil => simp [CR, hb13]
        | cons c t => rw [List.getLast?_cons_cons]; exact hcr
      refine ⟨?_, ?_, ?_⟩
      · simp only [dataChunkState, hpart, hf, hpre, hcr, hcr']
      · simp only [dataChunkOut, hpart, hf, hpre]
        simp only [Bool.false_eq_true, if_false, if_neg hcr, if_neg hcr']
        exact norm2_cons hb13 _
      · rw [hpart]
  · refine ⟨?_, ?_, ?_⟩
    · simp only [dataChunkState, hpart, hf]
      simp
    · simp only [dataChunkOut, hpart, hf, if_pos rfl, if_true]
      exact norm2_cons hb13 _
    · rw [hpart]

/-- Dropping a leading CR-plus-one-byte pair (`c ∉ {CR, IAC}`) out of a
DATA-state chunk step, given how `norm2` rewrites the pair. -/
theorem dataChunk_cons2 {c : Byte} (w : List Byte) (hc13 : c ≠ 13) (hc255 : c ≠ 255)
    (hout : ∀ z : List Byte, norm2 (13 :: c :: z) = w ++ norm2 z) (rest : List Byte) :
    dataChunkState (13 :: c :: rest) = dataChunkState rest ∧
    dataChunkOut (13 :: c :: rest) = w ++ dataChunkOut rest ∧
    (partition1 IAC (13 :: c :: rest)).2.2 = (partition1 IAC rest).2.2 := by
  have hpart : partition1 IAC (13 :: c :: rest) =
      (13 :: c :: (partition1 IAC rest).1, (partition1 IAC rest).2.1,
        (partition1 IAC rest).2.2) := by
    rw [partition1_cons_ne IAC (show (13 : Byte) ≠ IAC by decide),
      partition1_cons_ne IAC hc255]
  cases hf : (partition1 IAC rest).2.1
  · obtain ⟨hpre, hrest⟩ := partition1_not_found hf
    by_cases hcr : rest.getLast? = some CR
    · have hne : rest ≠ [] := by
        intro h
        rw [h] at hcr
        simp at hcr
      have hcr' : (13 :: c :: rest).getLast? = some CR := by
        cases rest with
        | nil => exact absurd rfl hne
        | cons d t =>
          rw [List.getLast?_cons_cons, List.getLast?_cons_cons]
          exact hcr
      refine ⟨?_, ?_, ?_⟩
      · simp only [dataChunkState, hpart, hf, hpre, hcr, hcr']
      · simp only [dataChunkOut, hpart, hf, hpre, hcr, hcr']
        simp only [Bool.false_eq_true, if_false, if_pos rfl]
        cases rest with
        | nil => exact absurd rfl hne
        | cons d t =>
          have hd : (13 :: c :: d :: t).dropLast = 13 :: c :: (d :: t).dropLast := rfl
          rw [hd]
          exact hout _
      · rw [hpart]
    · have hcr' : ¬((13 :: c :: rest).getLast? = some CR) := by
        cases rest with
        | nil => simp [CR, hc13]
        | cons d t =>
          rw [List.getLast?_cons_cons, List.getLast?_cons_cons]
          exact hcr
      refine ⟨?_, ?_, ?_⟩
      · simp only [dataChunkState, hpart, hf, hpre, hcr, hcr']
      · simp only [dataChunkOut, hpart, hf, hpre]
        simp only [Bool.false_eq_true, if_false, if_neg hcr, if_neg hcr']
        exact hout _
      · rw [hpart]
  · refine ⟨?_, ?_, ?_⟩
    · simp only [dataChunkState, hpart, hf]
      simp
    · simp only [dataChunkOut, hpart, hf, if_pos rfl, if_true]
      exact hout _
    · rw [hpart]

/-- If a chunk step over `big` equals the chunk step over `rest` with the
extra output `w`, then running the parser on `big` equals running it on
`rest` with `w` pre-appended to the application buffer. -/
theorem odr_shift (big rest w buf0 : List Byte) (c0 : Byte) (sub0 : List Byte)
    (h1 : dataChunkState big = dataChunkState rest)
    (h2 : dataChunkOut big = w ++ dataChunkOut rest)
    (h3 : (partition1 IAC big).2.2 = (partition1 IAC rest).2.2)
    (hbig : big ≠ []) :
    on_data_received ⟨.data, buf0, c0, sub0⟩ big =
      on_data_received ⟨.data, buf0 ++ w, c0, sub0⟩ rest := by
  cases big with
  | nil => exact absurd rfl hbig
  | cons x bs =>
    rw [odr_data_step rfl, process_data_state_eq rfl]
    simp only [h1, h2, h3]
    cases rest with
    | nil =>
      have e1 : dataChunkState [] = .data := by decide
      have e2 : dataChunkOut [] = [] := by decide
      have e3 : (partition1 IAC []).2.2 = [] := rfl
      rw [e1, e2, e3]
      simp
    | cons c t =>
      rw [odr_data_step rfl, process_data_state_eq rfl]
      rw [← List.append_assoc]

/-- A CR in DATA state followed by byte `y` behaves exactly like feeding
`y` to the NEWLINE state. -/
theorem odr_data_cr (buf0 : List Byte) (c0 : Byte) (sub0 : List Byte) {y : Byte} (hy : y ≠ 13)
    (rest : List Byte) :
    on_data_received ⟨.data, buf0, c0, sub0⟩ (13 :: y :: rest) =
      on_data_received (process_newline_state ⟨.newline, buf0, c0, sub0⟩ y).1 rest := by
  by_cases hy255 : y = 255
  · subst hy255
    rw [odr_data_step rfl, process_data_state_eq rfl]
    have hpart : partition1 IAC (13 :: 255 :: rest) = ([13], true, rest) := by
      simp [partition1, IAC]
    have e1 : dataChunkState (13 :: 255 :: rest) = .command := by
      simp [dataChunkState, hpart]
    have e2 : dataChunkOut (13 :: 255 :: rest) = [13] := by
      simp [dataChunkOut, hpart]
      decide
    rw [e1, e2, hpart]
    simp [process_newline_state, LF, NULL, IAC, CR]
  · by_cases hy10 : y = 10
    · subst hy10
      have hd := dataChunk_cons2 [10] (by decide) (by decide) norm2_cr_lf rest
      have h := odr_shift (13 :: 10 :: rest) rest [10] buf0 c0 sub0 hd.1 hd.2.1 hd.2.2 (by simp)
      rw [h]
      simp [process_newline_state, LF]
    · by_cases hy0 : y = 0
      · subst hy0
        have hd := dataChunk_cons2 [13] (by decide) (by decide) norm2_cr_nul rest
        have h := odr_shift (13 :: 0 :: rest) rest [13] buf0 c0 sub0 hd.1 hd.2.1 hd.2.2 (by simp)
        rw [h]
        simp [process_newline_state, LF, NULL, CR]
      · have hd := dataChunk_cons2 [13, y] hy hy255 (norm2_cr_other hy10 hy0 hy) rest
        have h := odr_shift (13 :: y :: rest) rest [13, y] buf0 c0 sub0 hd.1 hd.2.1 hd.2.2
          (by simp)
        rw [h]
        simp [process_newline_state, LF, NULL, IAC, CR, hy10, hy0, hy255]

theorem odr_buf_empty (st : TelnetSt) (data : List Byte) :
    (on_data_received st data).1.app_data_buffer = [] := by
  simp [on_data_received, flush_app_data_eq, setBuf]

/-- If the first byte induces a state step that is uniform in the rest of
the input, then processing `b :: rest` in one call agrees (up to
normalization) with processing `[b]` and then `rest`. -/
theorem split_one_of_step {st stepSt : TelnetSt} {stepEv : List TelnetEvent} {b : Byte}
    (hstep : ∀ tail : List Byte, on_data_received st (b :: tail) =
      ((on_data_received stepSt tail).1, stepEv ++ (on_data_received stepSt tail).2))
    (rest : List Byte) :
    (on_data_received st (b :: rest)).1 =
      (on_data_received (on_data_received st [b]).1 rest).1 ∧
    normCore (on_data_received st (b :: rest)).2 =
      normCore ((on_data_received st [b]).2 ++
        (on_data_received (on_data_received st [b]).1 rest).2) := by
  have h1 : on_data_received st [b] =
      (setBuf stepSt [], stepEv ++ appEv stepSt.app_data_buffer) := by
    rw [hstep [], odr_nil]
  have hpre := prebuf rest.length rest (Nat.le_refl _) stepSt stepSt.app_data_buffer []
  rw [List.append_nil, setBuf_self] at hpre
  constructor
  · rw [hstep rest, h1]
    exact hpre.1
  · rw [hstep rest, h1]
    show normAux [] _ = normAux [] _
    have hc := normAux_congr hpre.2 stepEv []
    rw [List.append_assoc]
    exact hc

/-- `s` contains no two consecutive CR bytes. -/
def noCrCr : List Byte → Bool
  | [] => true
  | [_] => true
  | a :: b :: rest => !(a == 13 && b == 13) && noCrCr (b :: rest)

theorem noCrCr_tail {b : Byte} {rest : List Byte} (h : noCrCr (b :: rest) = true) :
    noCrCr rest = true := by
  cases rest with
  | nil => rfl
  | cons c t =>
    simp only [noCrCr, Bool.and_eq_true, Bool.not_eq_true'] at h
    exact h.2

theorem noCrCr_head {y : Byte} {t : List Byte} (h : noCrCr (13 :: y :: t) = true) : y ≠ 13 := by
  simp only [noCrCr, Bool.and_eq_true, Bool.not_eq_true'] at h
  intro hy
  subst hy
  simp at h

theorem pn_snd (st : TelnetSt) (y : Byte) : (process_newline_state st y).2 = [] := by
  unfold process_newline_state
  split_ifs <;> rfl

/-- Byte-by-byte feeding agrees with single-chunk feeding (final state,
and normalized event stream) from any at-rest state, provided the input
has no two consecutive CR bytes. -/
theorem feed_eq_bulk :
    ∀ (n : Nat) (s : List Byte), s.length ≤ n → ∀ st : TelnetSt,
      st.app_data_buffer = [] → noCrCr s = true →
      (feedBytes st s).1 = (on_data_received st s).1 ∧
      normCore (feedBytes st s).2 = normCore (on_data_received st s).2 := by
  have base : ∀ st : TelnetSt, st.app_data_buffer = [] →
      (feedBytes st []).1 = (on_data_received st []).1 ∧
      normCore (feedBytes st []).2 = normCore (on_data_received st []).2 := by
    intro st hbuf
    rw [odr_nil]
    constructor
    · show st = setBuf st []
      rw [← hbuf, setBuf_self]
    · show normCore [] = normCore (appEv st.app_data_buffer)
      rw [hbuf]
      rfl
  intro n
  induction n with
  | zero =>
    intro s hlen st hbuf hcr
    have hs : s = [] := List.eq_nil_of_length_eq_zero (Nat.le_zero.mp hlen)
    subst hs
    exact base st hbuf
  | succ m ih =>
    intro s hlen st hbuf hcr
    cases s with
    | nil => exact base st hbuf
    | cons b rest =>
      have hrest : rest.length ≤ m := by simpa using hlen
      have hcrt : noCrCr rest = true := noCrCr_tail hcr
      have hbuf1 : (on_data_received st [b]).1.app_data_buffer = [] := odr_buf_empty st [b]
      obtain ⟨ihS, ihE⟩ := ih rest hrest (on_data_received st [b]).1 hbuf1 hcrt
      have hfeed : feedBytes st (b :: rest) =
          ((feedBytes (on_data_received st [b]).1 rest).1,
            (on_data_received st [b]).2 ++ (feedBytes (on_data_received st [b]).1 rest).2) := rfl
      suffices hsplit :
          (on_data_received st (b :: rest)).1 =
            (on_data_received (on_data_received st [b]).1 rest).1 ∧
          normCore (on_data_received st (b :: rest)).2 =
            normCore ((on_data_received st [b]).2 ++
              (on_data_received (on_data_received st [b]).1 rest).2) by
        rw [hfeed]
        constructor
        · show (feedBytes (on_data_received st [b]).1 rest).1 = _
          rw [ihS]
          exact hsplit.1.symm
        · show normCore ((on_data_received st [b]).2 ++
            (feedBytes (on_data_received st [b]).1 rest).2) = _
          have hc := normAux_congr ihE (on_data_received st [b]).2 []
          exact hc.trans hsplit.2.symm
      obtain ⟨s0, buf0, cmd0, sub0⟩ := st
      simp only at hbuf
      subst hbuf
      cases s0 with
      | data =>
        by_cases hb13 : b = 13
        · subst hb13
          have hp : on_data_received ⟨.data, [], cmd0, sub0⟩ [13] =
              (⟨.newline, [], cmd0, sub0⟩, []) := by
            simp [on_data_received, telnetLoop, telnetLoopF, process_data_state, partition1,
              IAC, CR, flush_app_data, replace_crlf_lf, replace_crnul_cr]
          cases rest with
          | nil =>
            rw [hp, odr_nil]
            constructor
            · simp [setBuf]
            · simp [appEv]
          | cons y t =>
            have hy : y ≠ 13 := noCrCr_head hcr
            rw [hp]
            rw [odr_data_cr [] cmd0 sub0 hy t]
            have hnl : on_data_received (⟨.newline, [], cmd0, sub0⟩ : TelnetSt) (y :: t) =
                ((on_data_received (process_newline_state ⟨.newline, [], cmd0, sub0⟩ y).1 t).1,
                  (on_data_received (process_newline_state ⟨.newline, [], cmd0, sub0⟩ y).1 t).2) := by
              rw [odr_cons_newline rfl]
              rw [pn_snd]
              rfl
            rw [hnl]
            exact ⟨rfl, by simp⟩
        · by_cases hb255 : b = 255
          · subst hb255
            have hstep : ∀ tail : List Byte,
                on_data_received ⟨.data, [], cmd0, sub0⟩ (255 :: tail) =
                  ((on_data_received ⟨.command, [], cmd0, sub0⟩ tail).1,
                    [] ++ (on_data_received ⟨.command, [], cmd0, sub0⟩ tail).2) := by
              intro tail
              rw [odr_data_step rfl, process_data_state_eq rfl]
              have hpart : partition1 IAC (255 :: tail) = ([], true, tail) := by
                simp [partition1, IAC]
              have e1 : dataChunkState (255 :: tail) = .command := by
                simp [dataChunkState, hpart]
              have e2 : dataChunkOut (255 :: tail) = [] := by
                simp [dataChunkOut, hpart]
                decide
              rw [e1, e2, hpart]
              simp
            exact split_one_of_step hstep rest
          · have hstep : ∀ tail : List Byte,
                on_data_received ⟨.data, [], cmd0, sub0⟩ (b :: tail) =
                  ((on_data_received ⟨.data, [b], cmd0, sub0⟩ tail).1,
                    [] ++ (on_data_received ⟨.data, [b], cmd0, sub0⟩ tail).2) := by
              intro tail
              have hd := dataChunk_cons hb13 hb255 tail
              have h := odr_shift (b :: tail) tail [b] [] cmd0 sub0 hd.1 hd.2.1 hd.2.2 (by simp)
              rw [h]
              simp
            exact split_one_of_step hstep rest
      | command =>
        exact split_one_of_step (fun tail => odr_cons_command rfl b tail) rest
      | newline =>
        exact split_one_of_step (fun tail => odr_cons_newline rfl b tail) rest
      | negotiation =>
        exact split_one_of_step (fun tail => odr_cons_negotiation rfl b tail) rest
      | subnegotiation =>
        have hstep : ∀ tail : List Byte,
            on_data_received ⟨.subnegotiation, [], cmd0, sub0⟩ (b :: tail) =
              ((on_data_received (process_subnegotiation_state ⟨.subnegotiation, [], cmd0, sub0⟩ b)
                  tail).1,
                [] ++ (on_data_received
                  (process_subnegotiation_state ⟨.subnegotiation, [], cmd0, sub0⟩ b) tail).2) := by
          intro tail
          rw [odr_cons_subnegotiation rfl]
          simp
        exact split_one_of_step hstep rest
      | subnegotiationEscaped =>
        exact split_one_of_step (fun tail => odr_cons_subnegotiationEscaped rfl b tail) rest

/-! ## Telnet option negotiation (`telnet.py`, Q-method) -/

/-- `OptionPerspective` from `telnet.py`. -/
structure OptionPerspective where
  enabled : Bool
  negotiating : Bool
  deriving DecidableEq, Repr

/-- `OptionState` from `telnet.py`. -/
structure OptionState where
  us : OptionPerspective
  him : OptionPerspective
  deriving DecidableEq, Repr

/-- The state `get_option_state` creates on first reference. -/
def optionStateInit : OptionState := ⟨⟨false, false⟩, ⟨false, false⟩⟩

/-- `TelnetProtocol.will`: offer to enable a locally managed option.
Returns the new state and the bytes written to the peer (none when the
precondition is violated, which merely logs a warning). -/
def will (state : OptionState) (option : Byte) : OptionState × List Byte :=
  if state.us.negotiating || state.him.negotiating then (state, [])
  else if state.us.enabled then (state, [])
  else ({ state with us := { state.us with negotiating := true } }, [IAC, WILL, option])

/-- `TelnetProtocol.wont`. -/
def wont (state : OptionState) (option : Byte) : OptionState × List Byte :=
  if state.us.negotiating || state.him.negotiating then (state, [])
  else if !state.us.enabled then (state, [])
  else ({ state with us := { state.us with negotiating := true } }, [IAC, WONT, option])

/-- `TelnetProtocol.do`. -/
def do_ (state : OptionState) (option : Byte) : OptionState × List Byte :=
  if state.us.negotiating || state.him.negotiating then (state, [])
  else if state.him.enabled then (state, [])
  else ({ state with him := { state.him with negotiating := true } }, [IAC, DO, option])

/-- `TelnetProtocol.dont`. -/
def dont (state : OptionState) (option : Byte) : OptionState × List Byte :=
  if state.us.negotiating || state.him.negotiating then (state, [])
  else if !state.him.enabled then (state, [])
  else ({ state with him := { state.him with negotiating := true } }, [IAC, DONT, option])

/-- `TelnetProtocol.on_will`.  `accept` is the result of the
`on_enable_remote` policy callback for this option; `none` models the
`AssertionError` paths. -/
def on_will (accept : Bool) (state : OptionState) (option : Byte) :
    Option (OptionState × List Byte) :=
  if !state.him.enabled && !state.him.negotiating then
    if accept then
      some ({ state with him := { state.him with enabled := true } }, [IAC, DO, option])
    else
      some (state, [IAC, DONT, option])
  else if !state.him.enabled && state.him.negotiating then
    if accept then
      some ({ state with him := { enabled := true, negotiating := false } }, [])
    else
      none
  else if state.him.enabled && !state.him.negotiating then
    some (state, [])
  else
    none

/-- `TelnetProtocol.on_wont`. -/
def on_wont (state : OptionState) (option : Byte) : OptionState × List Byte :=
  if !state.him.enabled && !state.him.negotiating then (state, [])
  else if !state.him.enabled && state.him.negotiating then
    ({ state with him := { state.him with negotiating := false } }, [])
  else if state.him.enabled && !state.him.negotiating then
    ({ state with him := { state.him with enabled := false } }, [IAC, DONT, option])
  else
    ({ state with him := { enabled := false, negotiating := false } }, [])

/-- `TelnetProtocol.on_do`.  `accept` is the result of the
`on_enable_local` policy callback.  (On the agreed-enable path the
source ignores the callback's result, so only the bogus-state
case is `none`.) -/
def on_do (accept : Bool) (state : OptionState) (option : Byte) :
    Option (OptionState × List Byte) :=
  if !state.us.enabled && !state.us.negotiating then
    if accept then
      some ({ state with us := { state.us with enabled := true } }, [IAC, WILL, option])
    else
      some (state, [IAC, WONT, option])
  else if !state.us.enabled && state.us.negotiating then
    some ({ state with us := { enabled := true, negotiating := false } }, [])
  else if state.us.enabled && !state.us.negotiating then
    some (state, [])
  else
    none

/-- `TelnetProtocol.on_dont`. -/
def on_dont (state : OptionState) (option : Byte) : OptionState × List Byte :=
  if !state.us.enabled && !state.us.negotiating then (state, [])
  else if !state.us.enabled && state.us.negotiating then
    ({ state with us := { state.us with negotiating := false } }, [])
  else if state.us.enabled && !state.us.negotiating then
    ({ state with us := { state.us with enabled := false } }, [IAC, WONT, option])
  else
    ({ state with us := { enabled := false, negotiating := false } }, [])

/-! ## Claim theorems: C1 -/

/-- C1, counterexample: the option-state invariant
`¬(enabled ∧ negotiating)` does NOT hold after every caller-invoked
intent method returns.  Starting from a fresh option state: `will(ECHO)`
(we offer), then a received `DO ECHO` (peer agrees: `us.enabled` becomes
true), then `wont(ECHO)` (we ask to disable) leaves the `us` perspective
with `enabled = true` AND `negotiating = true`. -/
theorem claim_C1_counterexample :
    (on_do true (will optionStateInit 1).1 1).map (fun res => (wont res.1 1).1) =
      some ⟨⟨true, true⟩, ⟨false, false⟩⟩ := by decide

/-- C1, amended: the invariant `¬(enabled ∧ negotiating)` does hold for
the relevant perspective after every completed dispatch of a received
WILL/WONT/DO/DONT (the handlers never leave it set; the bogus-state
paths raise instead), and each handler leaves the other perspective
untouched; it is only the `wont`/`dont` intent methods that deliberately
produce `enabled ∧ negotiating` as their pending-disable marker. -/
theorem claim_C1 (accept : Bool) (st : OptionState) (o : Byte)
    (resW resD : OptionState × List Byte)
    (hW : on_will accept st o = some resW)
    (hD : on_do accept st o = some resD) :
    (resW.1.him.enabled && resW.1.him.negotiating) = false ∧ resW.1.us = st.us ∧
    ((on_wont st o).1.him.enabled && (on_wont st o).1.him.negotiating) = false ∧
    ((on_wont st o).1.us = st.us) ∧
    (resD.1.us.enabled && resD.1.us.negotiating) = false ∧ resD.1.him = st.him ∧
    ((on_dont st o).1.us.enabled && (on_dont st o).1.us.negotiating) = false ∧
    ((on_dont st o).1.him = st.him) := by
  obtain ⟨⟨ue, un⟩, ⟨he, hn⟩⟩ := st
  cases accept <;> cases ue <;> cases un <;> cases he <;> cases hn <;>
    simp [on_will, on_do] at hW hD <;> subst hW <;> subst hD <;> simp [on_wont, on_dont]

theorem claim_C1_witness :
    on_will true optionStateInit 1 = some (⟨⟨false, false⟩, ⟨true, false⟩⟩, [255, 253, 1]) ∧
    on_do true optionStateInit 1 = some (⟨⟨true, false⟩, ⟨false, false⟩⟩, [255, 251, 1]) ∧
    (((⟨⟨false, false⟩, ⟨true, false⟩⟩, [255, 253, 1]) :
        OptionState × List Byte).1.him.enabled &&
      ((⟨⟨false, false⟩, ⟨true, false⟩⟩, [255, 253, 1]) :
        OptionState × List Byte).1.him.negotiating) = false := by
  refine ⟨by decide, by decide, ?_⟩
  exact (claim_C1 true optionStateInit 1 (⟨⟨false, false⟩, ⟨true, false⟩⟩, [255, 253, 1])
    (⟨⟨true, false⟩, ⟨false, false⟩⟩, [255, 251, 1]) (by decide) (by decide)).1

/-! ## Claim theorems: C2 -/

/-- C2, counterexample: the input `CR CR LF` yields application bytes
`CR LF` when fed in a single call (the chunk-level `CRLF → LF` replace
pairs the second CR with the LF) but `CR CR LF` when fed byte-by-byte
(the NEWLINE state emits `CR CR`, and the LF then arrives in DATA state
as a bare LF). -/
theorem claim_C2_counterexample :
    (on_data_received telnetInit [13, 13, 10]).2 = [.appData [13, 10]] ∧
    (feedBytes telnetInit [13, 13, 10]).2 = [.appData [13, 13], .appData [10]] ∧
    normCore (feedBytes telnetInit [13, 13, 10]).2 ≠
      normCore (on_data_received telnetInit [13, 13, 10]).2 := by decide

/-- C2, amended: for every input without two consecutive CR bytes and
every at-rest initial state (the application buffer is empty between
calls), feeding byte-by-byte and feeding in one chunk produce the same
final parser state and the same normalized event stream (application
bytes compared as concatenations, commands and subnegotiations in
order). -/
theorem claim_C2 (s : List Byte) (st : TelnetSt) (hbuf : st.app_data_buffer = [])
    (hcr : noCrCr s = true) :
    (feedBytes st s).1 = (on_data_received st s).1 ∧
    normCore (feedBytes st s).2 = normCore (on_data_received st s).2 :=
  feed_eq_bulk s.length s (Nat.le_refl _) st hbuf hcr

theorem claim_C2_witness :
    telnetInit.app_data_buffer = [] ∧ noCrCr [72, 255, 241, 13, 10, 65] = true ∧
    ((feedBytes telnetInit [72, 255, 241, 13, 10, 65]).1 =
      (on_data_received telnetInit [72, 255, 241, 13, 10, 65]).1 ∧
    normCore (feedBytes telnetInit [72, 255, 241, 13, 10, 65]).2 =
      normCore (on_data_received telnetInit [72, 255, 241, 13, 10, 65]).2) :=
  ⟨rfl, by decide, claim_C2 [72, 255, 241, 13, 10, 65] telnetInit rfl (by decide)⟩

/-! ## Claim theorems: C9 and C10 -/

/-- Feeding an IAC-escaped payload to the SUBNEGOTIATION state resolves
the escapes into the accumulator and ends back in SUBNEGOTIATION. -/
theorem subneg_escape_run :
    ∀ (d buf : List Byte) (c0 : Byte) (acc tail : List Byte),
      telnetLoop ⟨.subnegotiation, buf, c0, acc⟩ (escape_iac d ++ tail) =
        telnetLoop ⟨.subnegotiation, buf, c0, acc ++ d⟩ tail := by
  intro d
  induction d with
  | nil =>
    intro buf c0 acc tail
    simp [escape_iac]
  | cons x xs ih =>
    intro buf c0 acc tail
    by_cases hx : x = 255
    · subst hx
      show telnetLoop _ (255 :: 255 :: (escape_iac xs ++ tail)) = _
      rw [telnetLoop_cons_subnegotiation rfl]
      have h1 : process_subnegotiation_state ⟨.subnegotiation, buf, c0, acc⟩ 255 =
          ⟨.subnegotiationEscaped, buf, c0, acc⟩ := by
        simp [process_subnegotiation_state, IAC]
      rw [h1, telnetLoop_cons_subnegotiationEscaped rfl]
      have h2 : process_subnegotiation_escaped_state ⟨.subnegotiationEscaped, buf, c0, acc⟩ 255 =
          (⟨.subnegotiation, buf, c0, acc ++ [255]⟩, []) := by
        simp [process_subnegotiation_escaped_state, SE]
      rw [h2]
      show (_, [] ++ _) = _
      rw [List.nil_append, ih buf c0 (acc ++ [255]) tail]
      simp
    · show telnetLoop _ ((if x = 255 then _ else x :: escape_iac xs) ++ tail) = _
      rw [if_neg hx]
      show telnetLoop _ (x :: (escape_iac xs ++ tail)) = _
      rw [telnetLoop_cons_subnegotiation rfl]
      have h1 : process_subnegotiation_state ⟨.subnegotiation, buf, c0, acc⟩ x =
          ⟨.subnegotiation, buf, c0, acc ++ [x]⟩ := by
        simp [process_subnegotiation_state, IAC, hx]
      rw [h1, ih buf c0 (acc ++ [x]) tail]
      simp

/-- C9 (amended): `escape_iac` doubles every 0xFF byte, and for every
option byte other than IAC itself and every payload, the wire form
`IAC SB option escape_iac(data) IAC SE` fed to a fresh Telnet parser
dispatches exactly one `on_subnegotiation(option, data)` with the
original payload, returning the parser to its initial state. -/
theorem claim_C9 (option : Byte) (hopt : option ≠ 255) (data : List Byte) :
    escape_iac data = data.flatMap (fun b => if b = 255 then [255, 255] else [b]) ∧
    on_data_received telnetInit ([IAC, SB, option] ++ escape_iac data ++ [IAC, SE]) =
      (telnetInit, [.subneg option data]) := by
  constructor
  · induction data with
    | nil => rfl
    | cons b rest ih =>
      show (if b = 255 then _ else _) = _
      by_cases hb : b = 255
      · simp [hb, List.flatMap_cons, ih]
      · simp [hb, List.flatMap_cons, ih]
  · have s1 : telnetLoop telnetInit (255 :: (250 :: option :: (escape_iac data ++ [255, 240]))) =
        telnetLoop ⟨.command, [], 0, []⟩ (250 :: option :: (escape_iac data ++ [255, 240])) := by
      rw [telnetLoop_cons_data rfl]
      have : process_data_state telnetInit
          (255 :: (250 :: option :: (escape_iac data ++ [255, 240]))) =
          (⟨.command, [], 0, []⟩, 250 :: option :: (escape_iac data ++ [255, 240])) := by
        simp [process_data_state, partition1, IAC, telnetInit, replace_crlf_lf, replace_crnul_cr]
      rw [this]
    have s2 : telnetLoop (⟨.command, [], 0, []⟩ : TelnetSt)
        (250 :: option :: (escape_iac data ++ [255, 240])) =
        telnetLoop ⟨.subnegotiation, [], 0, []⟩ (option :: (escape_iac data ++ [255, 240])) := by
      rw [telnetLoop_cons_command rfl]
      have : process_command_state ⟨.command, [], 0, []⟩ 250 =
          (⟨.subnegotiation, [], 0, []⟩, []) := by
        simp [process_command_state, IAC, SE, SB]
      rw [this]
      simp
    have s3 : telnetLoop (⟨.subnegotiation, [], 0, []⟩ : TelnetSt)
        (option :: (escape_iac data ++ [255, 240])) =
        telnetLoop ⟨.subnegotiation, [], 0, [option]⟩ (escape_iac data ++ [255, 240]) := by
      rw [telnetLoop_cons_subnegotiation rfl]
      have : process_subnegotiation_state ⟨.subnegotiation, [], 0, []⟩ option =
          ⟨.subnegotiation, [], 0, [option]⟩ := by
        simp [process_subnegotiation_state, IAC, hopt]
      rw [this]
    have s4 := subneg_escape_run data [] 0 [option] [255, 240]
    have s5 : telnetLoop (⟨.subnegotiation, [], 0, [option] ++ data⟩ : TelnetSt) [255, 240] =
        (⟨.data, [], 0, []⟩, [.subneg option data]) := by
      rw [telnetLoop_cons_subnegotiation rfl]
      have h1 : process_subnegotiation_state ⟨.subnegotiation, [], 0, [option] ++ data⟩ 255 =
          ⟨.subnegotiationEscaped, [], 0, [option] ++ data⟩ := by
        simp [process_subnegotiation_state, IAC]
      rw [h1, telnetLoop_cons_subnegotiationEscaped rfl]
      have h2 : process_subnegotiation_escaped_state
          ⟨.subnegotiationEscaped, [], 0, [option] ++ data⟩ 240 =
          (⟨.data, [], 0, []⟩, [.subneg option data]) := by
        simp [process_subnegotiation_escaped_state, SE, flush_app_data]
      rw [h2]
      simp [telnetLoop_nil]
    have hform : [IAC, SB, option] ++ escape_iac data ++ [IAC, SE] =
        255 :: (250 :: option :: (escape_iac data ++ [255, 240])) := by
      simp [IAC, SB, SE]
    have hloop : telnetLoop telnetInit ([IAC, SB, option] ++ escape_iac data ++ [IAC, SE]) =
        (⟨.data, [], 0, []⟩, [.subneg option data]) := by
      rw [hform, s1, s2, s3, s4, s5]
    simp only [on_data_received, hloop]
    simp [flush_app_data, telnetInit]

theorem claim_C9_witness :
    (1 : Byte) ≠ 255 ∧
    (escape_iac [2, 255] = [2, 255, 255] ∧
      on_data_received telnetInit ([IAC, SB, 1] ++ escape_iac [2, 255] ++ [IAC, SE]) =
        (telnetInit, [.subneg 1 [2, 255]])) := by
  refine ⟨by decide, ?_, (claim_C9 1 (by decide) [2, 255]).2⟩
  exact (claim_C9 1 (by decide) [2, 255]).1.trans (by decide)

/-! ## Handler-chain manager (`manager.py`, class `Manager`)

Handler instances are identified by the order of their construction
(`next_id` plays the role of object identity); `receiver` maps a handler
id to where its `_receiver` callback points: either another handler's
`on_data_received` or the application receiver supplied at Manager
construction.  The pre-connection byte buffers and the writer side are
not needed by the claims about `register`/`unregister`/`disconnect` and
are not modelled. -/

/-- Where a handler's `_receiver` callback points. -/
inductive RecvTarget where
  | handler (id : Nat)
  | app
  deriving DecidableEq, Repr

structure Manager where
  handlers : List Nat
  receiver : Nat → RecvTarget
  is_connected : Bool
  next_id : Nat

def managerInit : Manager :=
  { handlers := [], receiver := fun _ => .app, is_connected := false, next_id := 0 }

/-- `Manager.connect` (the buffered-replay part is out of model). -/
def connect (m : Manager) : Manager := { m with is_connected := true }

/-- `Manager.register`: construct an instance whose `_receiver` is the
manager's terminal receiver, rewire the previous last handler to the new
instance, and append it.  (Each call registers a distinct handler class,
so the `ValueError` duplicate check never fires here.) -/
def register (m : Manager) : Manager :=
  let instId := m.next_id
  let receiver1 : Nat → RecvTarget := fun j => if j = instId then .app else m.receiver j
  let receiver2 : Nat → RecvTarget :=
    match m.handlers.getLast? with
    | some lastId => fun j => if j = lastId then .handler instId else receiver1 j
    | none => receiver1
  { handlers := m.handlers ++ [instId]
    receiver := receiver2
    is_connected := m.is_connected
    next_id := m.next_id + 1 }

/-- The mutation part of `Manager.unregister` (after its checks pass):
remove the instance, and if it was not the head, rewire its predecessor
to the removed instance's own `_receiver`. -/
def unregisterCore (m : Manager) (i : Nat) : Manager :=
  let index := m.handlers.indexOf i
  let handlers' := m.handlers.erase i
  let receiver' : Nat → RecvTarget :=
    if handlers' ≠ [] ∧ 0 < index then
      fun j => if j = handlers'.getD (index - 1) 0 then m.receiver i else m.receiver j
    else m.receiver
  { handlers := handlers'
    receiver := receiver'
    is_connected := m.is_connected
    next_id := m.next_id }

/-- `Manager.unregister`: `none` models the raised `ValueError` when the
instance was never registered. -/
def unregisterQ (m : Manager) (i : Nat) : Option Manager :=
  if i ∈ m.handlers then some (unregisterCore m i) else none

/-- The `while self._handlers: self.unregister(self._handlers[0])` loop
of `Manager.disconnect`, with structural fuel (each iteration removes
one handler, so `m.handlers.length` suffices); also returns the order in
which handlers were unregistered (= the order of their
`on_connection_lost` callbacks). -/
def disconnectLoopF : Nat → Manager → Manager × List Nat
  | 0, m => (m, [])
  | fuel + 1, m =>
    match m.handlers with
    | [] => (m, [])
    | i :: _ =>
      let r := disconnectLoopF fuel (unregisterCore m i)
      (r.1, i :: r.2)

/-- `Manager.disconnect`. -/
def disconnect (m : Manager) : Manager × List Nat :=
  if m.is_connected then
    let r := disconnectLoopF m.handlers.length m
    ({ r.1 with is_connected := false }, r.2)
  else (m, [])

theorem unregisterCore_head (m : Manager) (i : Nat) (tl : List Nat)
    (h : m.handlers = i :: tl) :
    (unregisterCore m i).handlers = tl ∧ (unregisterCore m i).is_connected = m.is_connected := by
  constructor
  · show (m.handlers.erase i) = tl
    rw [h, List.erase_cons_head]
  · rfl

theorem disconnectLoopF_spec :
    ∀ (n : Nat) (m : Manager), m.handlers.length ≤ n →
      (disconnectLoopF n m).1.handlers = [] ∧
      (disconnectLoopF n m).2 = m.handlers ∧
      (disconnectLoopF n m).1.is_connected = m.is_connected := by
  intro n
  induction n with
  | zero =>
    intro m hm
    have h : m.handlers = [] := List.eq_nil_of_length_eq_zero (Nat.le_zero.mp hm)
    exact ⟨by simp [disconnectLoopF, h], by simp [disconnectLoopF, h], rfl⟩
  | succ k ih =>
    intro m hm
    cases hh : m.handlers with
    | nil =>
      refine ⟨?_, ?_, ?_⟩ <;> simp [disconnectLoopF, hh]
    | cons i tl =>
      obtain ⟨h1, h2⟩ := unregisterCore_head m i tl hh
      have hlen : (unregisterCore m i).handlers.length ≤ k := by
        rw [h1]
        rw [hh] at hm
        simpa using hm
      obtain ⟨ih1, ih2, ih3⟩ := ih (unregisterCore m i) hlen
      refine ⟨?_, ?_, ?_⟩
      · simp only [disconnectLoopF, hh]
        exact ih1
      · simp only [disconnectLoopF, hh]
        rw [ih2, h1]
      · simp only [disconnectLoopF, hh]
        rw [ih3, h2]

/-! ## Claim theorems: C3 -/

/-- C3, counterexample: `disconnect` does NOT tear the chain down in
registration-reverse order.  With two handlers registered (ids 0 then 1),
the teardown (`on_connection_lost`) order is `[0, 1]` — the first
registered handler first — not `[1, 0]`. -/
theorem claim_C3_counterexample :
    (disconnect (register (register (connect managerInit)))).2 = [0, 1] ∧
    (disconnect (register (register (connect managerInit)))).2 ≠ [1, 0] := by
  exact ⟨by rfl, by decide⟩

/-- C3, amended: on a connected manager, `disconnect` unregisters the
handlers in registration order (`handlers[0]` first) until the chain is
empty, then clears `is_connected`; a second `disconnect` is a no-op. -/
theorem claim_C3 (m : Manager) (hc : m.is_connected = true) :
    (disconnect m).2 = m.handlers ∧
    (disconnect m).1.handlers = [] ∧
    (disconnect m).1.is_connected = false ∧
    disconnect (disconnect m).1 = ((disconnect m).1, []) := by
  obtain ⟨h1, h2, h3⟩ := disconnectLoopF_spec m.handlers.length m (Nat.le_refl _)
  have hd : disconnect m =
      ({ (disconnectLoopF m.handlers.length m).1 with is_connected := false },
        (disconnectLoopF m.handlers.length m).2) := by
    simp [disconnect, hc]
  refine ⟨?_, ?_, ?_, ?_⟩
  · rw [hd]
    exact h2
  · rw [hd]
    exact h1
  · rw [hd]
  · rw [hd]
    simp [disconnect]

theorem claim_C3_witness :
    (connect managerInit).is_connected = true ∧
    ((disconnect (connect managerInit)).2 = (connect managerInit).handlers ∧
      (disconnect (connect managerInit)).1.handlers = [] ∧
      (disconnect (connect managerInit)).1.is_connected = false ∧
      disconnect (disconnect (connect managerInit)).1 =
        ((disconnect (connect managerInit)).1, [])) :=
  ⟨rfl, claim_C3 (connect managerInit) rfl⟩

/-! ## Claim theorems: C8 -/

/-- The handler-chain wiring invariant, stated along the chain: each
handler's `_receiver` points at the next handler's `on_data_received`,
and the last handler's `_receiver` is the application receiver. -/
def wiredFrom (recv : Nat → RecvTarget) : List Nat → Prop
  | [] => True
  | [a] => recv a = .app
  | a :: b :: rest => recv a = .handler b ∧ wiredFrom recv (b :: rest)

theorem wiredFrom_congr (recv recv' : Nat → RecvTarget) :
    ∀ l : List Nat, (∀ x ∈ l, recv' x = recv x) → wiredFrom recv l → wiredFrom recv' l := by
  intro l
  induction l with
  | nil => intro _ _; trivial
  | cons a t ih =>
    intro hx hw
    cases t with
    | nil =>
      show recv' a = .app
      rw [hx a (by simp)]
      exact hw
    | cons b rest =>
      exact ⟨by rw [hx a (by simp)]; exact hw.1,
        ih (fun x hxm => hx x (by simp [hxm])) hw.2⟩

theorem wiredFrom_tail (recv : Nat → RecvTarget) (a : Nat) (l : List Nat)
    (h : wiredFrom recv (a :: l)) : wiredFrom recv l := by
  cases l with
  | nil => trivial
  | cons b rest => exact h.2

theorem mem_of_getLast?_eq (a : Nat) : ∀ l : List Nat, l.getLast? = some a → a ∈ l := by
  intro l
  induction l with
  | nil => intro h; simp at h
  | cons x t ih =>
    intro h
    cases t with
    | nil =>
      simp only [List.getLast?_singleton, Option.some.injEq] at h
      simp [h]
    | cons y rest =>
      rw [List.getLast?_cons_cons] at h
      simp [ih h]

theorem ne_last_of_mem_dropLast (x lastId : Nat) :
    ∀ l : List Nat, l.Nodup → x ∈ l.dropLast → l.getLast? = some lastId → x ≠ lastId := by
  intro l
  induction l with
  | nil => intro _ hx _; simp at hx
  | cons a t ih =>
    intro hnd hx hL
    cases t with
    | nil => simp at hx
    | cons b rest =>
      rw [List.getLast?_cons_cons] at hL
      have hd : (a :: b :: rest).dropLast = a :: (b :: rest).dropLast := rfl
      rw [hd] at hx
      rcases List.mem_cons.mp hx with hxa | hxt
      · subst hxa
        intro hxl
        subst hxl
        exact (List.nodup_cons.mp hnd).1 (mem_of_getLast?_eq x (b :: rest) hL)
      · exact ih (List.nodup_cons.mp hnd).2 hxt hL

theorem wiredFrom_snoc (recv recv' : Nat → RecvTarget) (nid : Nat) :
    ∀ l : List Nat, wiredFrom recv l →
      recv' nid = .app →
      (∀ a, l.getLast? = some a → recv' a = .handler nid) →
      (∀ x ∈ l.dropLast, recv' x = recv x) →
      wiredFrom recv' (l ++ [nid]) := by
  intro l
  induction l with
  | nil =>
    intro _ hnew _ _
    exact hnew
  | cons a t ih =>
    intro hw hnew hlast hsame
    cases t with
    | nil => exact ⟨hlast a rfl, hnew⟩
    | cons b rest =>
      refine ⟨?_, ?_⟩
      · have ha : a ∈ (a :: b :: rest).dropLast := by
          show a ∈ a :: (b :: rest).dropLast
          simp
        rw [hsame a ha]
        exact hw.1
      · exact ih hw.2 hnew
          (fun x hx => hlast x (by rw [List.getLast?_cons_cons]; exact hx))
          (fun x hx => hsame x (by show x ∈ a :: (b :: rest).dropLast; simp [hx]))

/-- Internal consistency of a manager: distinct live handler ids, all
below the id counter, and the chain correctly wired. -/
def minv (m : Manager) : Prop :=
  m.handlers.Nodup ∧ (∀ id ∈ m.handlers, id < m.next_id) ∧ wiredFrom m.receiver m.handlers

theorem minv_init : minv managerInit := ⟨List.nodup_nil, by simp [managerInit], trivial⟩

theorem minv_register (m : Manager) (h : minv m) : minv (register m) := by
  obtain ⟨hnd, hbd, hw⟩ := h
  have hfresh : m.next_id ∉ m.handlers := fun hmem => absurd (hbd _ hmem) (by omega)
  cases hL : m.handlers.getLast? with
  | none =>
    have hemp : m.handlers = [] := List.getLast?_eq_none_iff.mp hL
    refine ⟨?_, ?_, ?_⟩
    · show (m.handlers ++ [m.next_id]).Nodup
      simp [hemp]
    · intro id hid
      show id < m.next_id + 1
      rcases List.mem_append.mp hid with h1 | h1
      · exact Nat.lt_succ_of_lt (hbd id h1)
      · simp at h1
        omega
    · show wiredFrom _ (m.handlers ++ [m.next_id])
      rw [hemp]
      show wiredFrom _ [m.next_id]
      simp [wiredFrom, register, hL]
  | some lastId =>
    have hlmem : lastId ∈ m.handlers := mem_of_getLast?_eq lastId m.handlers hL
    have hne : m.next_id ≠ lastId := fun hc => hfresh (hc ▸ hlmem)
    refine ⟨?_, ?_, ?_⟩
    · show (m.handlers ++ [m.next_id]).Nodup
      rw [List.nodup_append]
      exact ⟨hnd, by simp, by simpa using hfresh⟩
    · intro id hid
      show id < m.next_id + 1
      rcases List.mem_append.mp hid with h1 | h1
      · exact Nat.lt_succ_of_lt (hbd id h1)
      · simp at h1
        omega
    · show wiredFrom _ (m.handlers ++ [m.next_id])
      have hrecv : (register m).receiver = fun j =>
          if j = lastId then RecvTarget.handler m.next_id
          else if j = m.next_id then RecvTarget.app else m.receiver j := by
        show (match m.handlers.getLast? with
          | some lastId => fun j => if j = lastId then RecvTarget.handler m.next_id
              else if j = m.next_id then RecvTarget.app else m.receiver j
          | none => fun j => if j = m.next_id then RecvTarget.app else m.receiver j) = _
        rw [hL]
      show wiredFrom ((register m).receiver) _
      rw [hrecv]
      apply wiredFrom_snoc m.receiver _ m.next_id m.handlers hw
      · simp [hne]
      · intro a ha
        have : a = lastId := by
          rw [hL] at ha
          exact (Option.some.inj ha).symm
        subst this
        simp
      · intro x hx
        have hx1 : x ∈ m.handlers := List.dropLast_subset _ hx
        have hx2 : x ≠ lastId := ne_last_of_mem_dropLast x lastId m.handlers hnd hx hL
        have hx3 : x ≠ m.next_id := fun hc => hfresh (hc ▸ hx1)
        simp [hx2, hx3]

theorem exists_first_split (i : Nat) :
    ∀ l : List Nat, i ∈ l → ∃ pre post, l = pre ++ i :: post ∧ i ∉ pre := by
  intro l
  induction l with
  | nil => intro h; simp at h
  | cons a t ih =>
    intro h
    by_cases hai : a = i
    · subst hai
      exact ⟨[], t, rfl, by simp⟩
    · have hit : i ∈ t := by
        rcases List.mem_cons.mp h with h1 | h1
        · exact absurd h1.symm hai
        · exact h1
      obtain ⟨pre, post, h1, h2⟩ := ih hit
      exact ⟨a :: pre, post, by rw [h1]; rfl, by
        simp only [List.mem_cons, not_or]
        exact ⟨fun hc => hai hc.symm, h2⟩⟩

theorem indexOf_first (i : Nat) (post : List Nat) :
    ∀ pre : List Nat, i ∉ pre → (pre ++ i :: post).indexOf i = pre.length := by
  intro pre
  induction pre with
  | nil =>
    intro _
    simp
  | cons p pre' ih =>
    intro hp
    have hpi : p ≠ i := fun hc => hp (by simp [hc])
    show ((p :: (pre' ++ i :: post)).indexOf i) = pre'.length + 1
    rw [List.indexOf_cons_ne _ (by simpa using hpi)]
    rw [ih (fun hc => hp (by simp [hc]))]

theorem erase_first (i : Nat) (post : List Nat) (pre : List Nat) (hp : i ∉ pre) :
    (pre ++ i :: post).erase i = pre ++ post := by
  rw [List.erase_append_right _ (by simpa using hp), List.erase_cons_head]

theorem getD_concat : ∀ (l : List Nat) (p : Nat) (rest : List Nat),
    ((l ++ [p]) ++ rest).getD l.length 0 = p := by
  intro l
  induction l with
  | nil => intro p rest; rfl
  | cons a t ih =>
    intro p rest
    show ((t ++ [p]) ++ rest).getD t.length 0 = p
    exact ih p rest

theorem wiredFrom_erase_mid (recv : Nat → RecvTarget) (i p : Nat) (post : List Nat) :
    ∀ pre' : List Nat,
      ((pre' ++ [p]) ++ i :: post).Nodup →
      wiredFrom recv ((pre' ++ [p]) ++ i :: post) →
      wiredFrom (fun j => if j = p then recv i else recv j) ((pre' ++ [p]) ++ post) := by
  intro pre'
  induction pre' with
  | nil =>
    intro hnd hw
    have hw' : wiredFrom recv (p :: i :: post) := hw
    obtain ⟨h1, h2⟩ := hw'
    cases post with
    | nil =>
      show (if p = p then recv i else recv p) = RecvTarget.app
      simp only [if_pos rfl]
      exact h2
    | cons q rest =>
      refine ⟨?_, ?_⟩
      · show (if p = p then recv i else recv p) = RecvTarget.handler q
        simp only [if_pos rfl]
        exact h2.1
      · apply wiredFrom_congr recv _ (q :: rest) ?_ h2.2
        intro x hx
        have hxp : x ≠ p := by
          intro hc
          subst hc
          exact (List.nodup_cons.mp hnd).1 (by simp [hx])
        simp [hxp]
  | cons a pre2 ih =>
    intro hnd hw
    have hnd' : ((pre2 ++ [p]) ++ i :: post).Nodup := (List.nodup_cons.mp hnd).2
    have hamem : a ∉ (pre2 ++ [p]) ++ i :: post := (List.nodup_cons.mp hnd).1
    have hap : a ≠ p := fun hc => hamem (by simp [hc])
    cases pre2 with
    | nil =>
      have hw' : wiredFrom recv (a :: p :: i :: post) := hw
      refine ⟨?_, ih hnd' hw'.2⟩
      show (if a = p then recv i else recv a) = RecvTarget.handler p
      rw [if_neg hap]
      exact hw'.1
    | cons b pre3 =>
      have hw' : wiredFrom recv (a :: b :: ((pre3 ++ [p]) ++ i :: post)) := hw
      refine ⟨?_, ih hnd' hw'.2⟩
      show (if a = p then recv i else recv a) = RecvTarget.handler b
      rw [if_neg hap]
      exact hw'.1

theorem minv_unregisterCore (m : Manager) (i : Nat) (hmem : i ∈ m.handlers) (h : minv m) :
    minv (unregisterCore m i) := by
  obtain ⟨hnd, hbd, hw⟩ := h
  obtain ⟨pre, post, hsplit, hpre⟩ := exists_first_split i m.handlers hmem
  have hidx : m.handlers.indexOf i = pre.length := by
    rw [hsplit]
    exact indexOf_first i post pre hpre
  have herase : m.handlers.erase i = pre ++ post := by
    rw [hsplit]
    exact erase_first i post pre hpre
  have hnd' : (pre ++ post).Nodup := by
    rw [← herase]
    exact hnd.erase i
  have hbd' : ∀ id ∈ pre ++ post, id < m.next_id := by
    intro id hid
    apply hbd
    rw [← herase] at hid
    exact List.erase_subset _ _ hid
  rcases List.eq_nil_or_concat pre with hnil | ⟨pre', p, hpp⟩
  · subst hnil
    refine ⟨by simpa [unregisterCore, herase] using hnd', ?_, ?_⟩
    · intro id hid
      apply hbd'
      simpa [unregisterCore, herase] using hid
    · show wiredFrom (unregisterCore m i).receiver (unregisterCore m i).handlers
      have hr : (unregisterCore m i).receiver = m.receiver := by
        show (if m.handlers.erase i ≠ [] ∧ 0 < m.handlers.indexOf i then _ else m.receiver) = _
        rw [if_neg]
        rw [hidx]
        simp
      have hh : (unregisterCore m i).handlers = post := by
        show m.handlers.erase i = post
        simpa using herase
      rw [hr, hh]
      have hsplit' : m.handlers = i :: post := by simpa using hsplit
      have : wiredFrom m.receiver (i :: post) := by
        rw [hsplit'] at hw
        exact hw
      exact wiredFrom_tail m.receiver i post this
  · rw [List.concat_eq_append] at hpp
    subst hpp
    have hplen : (pre' ++ [p]).length = pre'.length + 1 := by simp
    have hguard : m.handlers.erase i ≠ [] ∧ 0 < m.handlers.indexOf i := by
      constructor
      · rw [herase]
        simp
      · rw [hidx, hplen]
        omega
    have hprev : (m.handlers.erase i).getD (m.handlers.indexOf i - 1) 0 = p := by
      rw [herase, hidx, hplen]
      show ((pre' ++ [p]) ++ post).getD pre'.length 0 = p
      exact getD_concat pre' p post
    refine ⟨by simpa [unregisterCore, herase] using hnd', ?_, ?_⟩
    · intro id hid
      apply hbd'
      simpa [unregisterCore, herase] using hid
    · show wiredFrom (unregisterCore m i).receiver (unregisterCore m i).handlers
      have hh : (unregisterCore m i).handlers = (pre' ++ [p]) ++ post := by
        show m.handlers.erase i = _
        exact herase
      have hr : (unregisterCore m i).receiver =
          fun j => if j = p then m.receiver i else m.receiver j := by
        show (if m.handlers.erase i ≠ [] ∧ 0 < m.handlers.indexOf i then
            (fun j => if j = (m.handlers.erase i).getD (m.handlers.indexOf i - 1) 0 then
              m.receiver i else m.receiver j)
          else m.receiver) = _
        rw [if_pos hguard, hprev]
      rw [hh, hr]
      apply wiredFrom_erase_mid m.receiver i p post pre'
      · rw [← hsplit]
        exact hnd
      · rw [← hsplit]
        exact hw

/-- Operations on the manager for claim C8: each `register` constructs a
fresh handler; `unregister i` removes handler `i` when present (a failed
unregister raises before mutating anything, leaving the state
unchanged). -/
inductive ManagerOp where
  | register
  | unregister (id : Nat)

def applyOp (m : Manager) : ManagerOp → Manager
  | .register => register m
  | .unregister i => (unregisterQ m i).getD m

def applyOps (m : Manager) : List ManagerOp → Manager
  | [] => m
  | op :: rest => applyOps (applyOp m op) rest

theorem minv_applyOps : ∀ (ops : List ManagerOp) (m : Manager), minv m → minv (applyOps m ops) := by
  intro ops
  induction ops with
  | nil => intro m h; exact h
  | cons op rest ih =>
    intro m h
    apply ih
    cases op with
    | register => exact minv_register m h
    | unregister i =>
      show minv ((unregisterQ m i).getD m)
      by_cases hmem : i ∈ m.handlers
      · rw [unregisterQ, if_pos hmem]
        exact minv_unregisterCore m i hmem h
      · rw [unregisterQ, if_neg hmem]
        exact h

theorem wiredFrom_getD (recv : Nat → RecvTarget) :
    ∀ l : List Nat, wiredFrom recv l →
      (∀ i : Nat, i + 1 < l.length → recv (l.getD i 0) = .handler (l.getD (i + 1) 0)) ∧
      (∀ lastId, l.getLast? = some lastId → recv lastId = .app) := by
  intro l
  induction l with
  | nil => intro _; exact ⟨by intro i hi; simp at hi, by intro a ha; simp at ha⟩
  | cons a t ih =>
    intro hw
    cases t with
    | nil =>
      refine ⟨?_, ?_⟩
      · intro i hi
        simp at hi
      · intro lastId hl
        simp only [List.getLast?_singleton, Option.some.injEq] at hl
        rw [← hl]
        exact hw
    | cons b rest =>
      obtain ⟨ih1, ih2⟩ := ih hw.2
      refine ⟨?_, ?_⟩
      · intro i hi
        cases i with
        | zero => exact hw.1
        | succ k =>
          have : k + 1 < (b :: rest).length := by
            simpa using hi
          exact ih1 k this
      · intro lastId hl
        rw [List.getLast?_cons_cons] at hl
        exact ih2 lastId hl

/-- C8: after any sequence of successful `register`/`unregister`
operations starting from a fresh manager, every handler's `_receiver`
points at the next handler's `on_data_received`, and the last handler's
`_receiver` is the application receiver supplied at construction. -/
theorem claim_C8 (ops : List ManagerOp) :
    (∀ i : Nat, i + 1 < (applyOps managerInit ops).handlers.length →
      (applyOps managerInit ops).receiver ((applyOps managerInit ops).handlers.getD i 0) =
        .handler ((applyOps managerInit ops).handlers.getD (i + 1) 0)) ∧
    (∀ lastId, (applyOps managerInit ops).handlers.getLast? = some lastId →
      (applyOps managerInit ops).receiver lastId = .app) :=
  wiredFrom_getD (applyOps managerInit ops).receiver (applyOps managerInit ops).handlers
    (minv_applyOps ops managerInit minv_init).2.2

/-- C9, counterexample: with option byte 0xFF (IAC, the EXOPL option)
and empty payload, the wire form `IAC SB option IAC SE` emitted by
`request_negotiation` dispatches NO subnegotiation: the option byte is
taken as an escape prefix, `SE` lands in the accumulator, and the parser
is left mid-subnegotiation. -/
theorem claim_C9_counterexample :
    on_data_received telnetInit ([IAC, SB, 255] ++ escape_iac [] ++ [IAC, SE]) =
      ({ state := .subnegotiation, app_data_buffer := [], received_command_byte := 0,
          received_subnegotiation_bytes := [255, 240] }, []) := by decide

/-- C10: an empty subnegotiation `IAC SB IAC SE` flushes any pending
application data downstream, logs the empty-subnegotiation warning, and
dispatches neither `on_subnegotiation` nor `on_unhandled_subnegotiation`;
the state machine returns to DATA. -/
theorem claim_C10 (pre : List Byte) :
    on_data_received ⟨.data, pre, 0, []⟩ [IAC, SB, IAC, SE] =
      (⟨.data, [], 0, []⟩, appEv pre ++ [.warn "Empty subnegotiation received."]) := by
  by_cases hpre : pre = []
  · subst hpre
    decide
  · simp [on_data_received, telnetLoop, telnetLoopF, process_data_state, partition1,
      process_command_state, process_subnegotiation_state, process_subnegotiation_escaped_state,
      IAC, SE, SB, CR, COMMAND_BYTES, NEGOTIATION_BYTES, flush_app_data, appEv, hpre,
      replace_crlf_lf, replace_crnul_cr]

/-! ## XML protocol (`xml.py`, class `XMLProtocol`)

Tag names are kept as byte lists (`decode_bytes` is a byte-preserving
latin-style decode, and every comparison made by the source is against a
pure-ASCII literal, so byte-level comparison is faithful; `str.upper` is
modelled by the ASCII `upperB`).  The two helper functions imported from
the external `knickknacks` package (`unescape_xml_bytes`) and the regex
helper `direction_from_movement` are modelled as opaque-to-the-claims
function parameters collected in `XMLCfg`.  The `IndexError` raised by
`self._parent_modes.pop()` on an empty list (and by `.split(None, 1)[0]`
on an all-slash/whitespace tag) is modelled as `Option.none`; events
already fired before such a raise are not modelled.  The Python list
`_parent_modes` is pushed/popped at its end; the Lean list holds the
stack top at its head. -/

def LT : Byte := 60
def GT : Byte := 62

/-- ASCII whitespace, the byte set stripped by `bytes.strip()`. -/
def isSpaceB (b : Byte) : Bool :=
  b == 32 || b == 9 || b == 10 || b == 13 || b == 11 || b == 12

/-- `bytes.strip()`: remove leading and trailing ASCII whitespace. -/
def stripWS (l : List Byte) : List Byte :=
  ((l.dropWhile isSpaceB).reverse.dropWhile isSpaceB).reverse

/-- `str.strip("/")` / `bytes.strip(b"/")`: remove leading and trailing
slashes. -/
def stripSlashes (l : List Byte) : List Byte :=
  ((l.dropWhile (fun b => b == 47)).reverse.dropWhile (fun b => b == 47)).reverse

/-- `decode_bytes(tag).strip("/").split(None, 1)[0] if tag else ""`.
`none` models the `IndexError` from `[0]` when the stripped string
contains no non-whitespace token. -/
def tag_name (tag : List Byte) : Option (List Byte) :=
  if tag = [] then some []
  else
    let core := (stripSlashes tag).dropWhile isSpaceB
    if core = [] then Option.none
    else some (core.takeWhile (fun b => !isSpaceB b))

/-- ASCII uppercase of one byte (`bytes.upper` / ASCII part of `str.upper`). -/
def upperB (b : Byte) : Byte := if 97 ≤ b ∧ b ≤ 122 then b - 32 else b

def bNONE : List Byte := [78, 79, 78, 69]
def bDESCRIPTION : List Byte := [68, 69, 83, 67, 82, 73, 80, 84, 73, 79, 78]
def bEXITS : List Byte := [69, 88, 73, 84, 83]
def bMAGIC : List Byte := [77, 65, 71, 73, 67]
def bNAME : List Byte := [78, 65, 77, 69]
def bPROMPT : List Byte := [80, 82, 79, 77, 80, 84]
def bROOM : List Byte := [82, 79, 79, 77]
def bTERRAIN : List Byte := [84, 69, 82, 82, 65, 73, 78]
def bGratuitous : List Byte := [103, 114, 97, 116, 117, 105, 116, 111, 117, 115]
def bMagicL : List Byte := [109, 97, 103, 105, 99]
def bMovement : List Byte := [109, 111, 118, 101, 109, 101, 110, 116]
def bPromptL : List Byte := [112, 114, 111, 109, 112, 116]
def bRoomL : List Byte := [114, 111, 111, 109]
def bNameL : List Byte := [110, 97, 109, 101]
def bDescriptionL : List Byte := [100, 101, 115, 99, 114, 105, 112, 116, 105, 111, 110]
def bExitsL : List Byte := [101, 120, 105, 116, 115]
def bTerrainL : List Byte := [116, 101, 114, 114, 97, 105, 110]
def bLine : List Byte := [108, 105, 110, 101]
def bDynamic : List Byte := [100, 121, 110, 97, 109, 105, 99]
def bTell : List Byte := [116, 101, 108, 108]
def bNarrate : List Byte := [110, 97, 114, 114, 97, 116, 101]
def bPray : List Byte := [112, 114, 97, 121]
def bSay : List Byte := [115, 97, 121]
def bEmote : List Byte := [101, 109, 111, 116, 101]

/-- `XMLState` enum from `xml.py`. -/
inductive XMLSState where
  | data
  | tag
  deriving DecidableEq, Repr

/-- `XMLMode` enum from `xml.py`. -/
inductive XMLMode where
  | none
  | description
  | exits
  | magic
  | name
  | prompt
  | room
  | terrain
  deriving DecidableEq, Repr

/-- `get_xml_mode` from `xml.py`: `XMLMode[tag.upper()]`, `None` if the
uppercased name is not a member name. -/
def get_xml_mode (tag : List Byte) : Option XMLMode :=
  let u := tag.map upperB
  if u = bNONE then some XMLMode.none
  else if u = bDESCRIPTION then some XMLMode.description
  else if u = bEXITS then some XMLMode.exits
  else if u = bMAGIC then some XMLMode.magic
  else if u = bNAME then some XMLMode.name
  else if u = bPROMPT then some XMLMode.prompt
  else if u = bROOM then some XMLMode.room
  else if u = bTERRAIN then some XMLMode.terrain
  else Option.none

/-- `XMLProtocol.tintin_replacements`. -/
def tintin_replacements : List (List Byte) :=
  [bPromptL, bNameL, bTell, bNarrate, bPray, bSay, bEmote]

/-- `get_tintin_tag_replacement` from `xml.py`. -/
def get_tintin_tag_replacement (tag : List Byte) : List Byte :=
  let is_closing : Bool := tag.head? == some 47
  let t := stripSlashes tag
  if t ∈ tintin_replacements then
    if is_closing then 58 :: t.map upperB else t.map upperB ++ [58]
  else []

/-- The mutable fields of an `XMLProtocol` instance. -/
structure XMLSt where
  state : XMLSState
  tag_buffer : List Byte
  text_buffer : List Byte
  dynamic_buffer : List Byte
  line_buffer : List Byte
  gratuitous : Bool
  mode : XMLMode
  parent_modes : List XMLMode
  deriving DecidableEq, Repr

/-- A fresh `XMLProtocol`. -/
def xmlInit : XMLSt := ⟨.data, [], [], [], [], false, .none, []⟩

/-- The two external helpers used by `xml.py`: `unescape_xml_bytes`
(from `knickknacks.xml`) and `direction_from_movement` (a regex search);
both are outside the scope of the claims and are modelled as parameters. -/
structure XMLCfg where
  unescape : List Byte → List Byte
  direction : List Byte → List Byte

/-- A concrete instantiation used for witnesses and counterexamples. -/
def xmlCfgId : XMLCfg := ⟨fun l => l, fun _ => []⟩

/-- An `on_xml_event(name, payload)` callback invocation. -/
inductive XMLEvent where
  | xmlEvent (name : List Byte) (payload : List Byte)
  deriving DecidableEq, Repr

/-- Split off the first line (keeping its `\r`, `\n` or `\r\n` ending);
`none` as second component when no line ending occurs. -/
def breakLine : List Byte → List Byte × Option (List Byte)
  | [] => ([], Option.none)
  | b :: rest =>
    if b = 13 then
      match rest with
      | 10 :: rest2 => ([13, 10], some rest2)
      | _ => ([13], some rest)
    else if b = 10 then ([10], some rest)
    else
      let r := breakLine rest
      (b :: r.1, r.2)

/-- `bytes.splitlines(keepends=True)` (bytes objects split only on
`\r`, `\n` and `\r\n`), fuelled for structural recursion. -/
def splitlinesKeepF : Nat → List Byte → List (List Byte)
  | 0, _ => []
  | fuel + 1, l =>
    if l = [] then []
    else
      match breakLine l with
      | (line, Option.none) => [line]
      | (line, some rest) => line :: splitlinesKeepF fuel rest

def splitlinesKeep (l : List Byte) : List (List Byte) := splitlinesKeepF l.length l

/-- `line.endswith((CR, LF))`. -/
def endsCRLF (l : List Byte) : Bool :=
  match l.getLast? with
  | some b => b == 13 || b == 10
  | Option.none => false

/-- `line.rstrip(CR_LF)`. -/
def rstripCRLF (l : List Byte) : List Byte :=
  (l.reverse.dropWhile (fun b => b == 13 || b == 10)).reverse

/-- `bytes.lstrip(b"\r\n")`. -/
def lstripCRLF (l : List Byte) : List Byte :=
  l.dropWhile (fun b => b == 13 || b == 10)

/-- The `"line"` events fired for the complete lines of the line buffer. -/
def mkLineEvents (cfg : XMLCfg) (lines : List (List Byte)) : List XMLEvent :=
  lines.filterMap (fun line =>
    if stripWS line = [] then Option.none
    else some (XMLEvent.xmlEvent bLine (cfg.unescape (rstripCRLF line))))

/-- The mode-dependent routing of text in `_handle_xml_text` (everything
between the `partition` and the final `separator` check). -/
def xml_text_route (cfg : XMLCfg) (st : XMLSt) (app_data : List Byte) :
    XMLSt × List XMLEvent :=
  match st.mode with
  | XMLMode.none =>
    let lines := splitlinesKeep (st.line_buffer ++ app_data)
    match lines.getLast? with
    | some last =>
      if endsCRLF last then ({ st with line_buffer := [] }, mkLineEvents cfg lines)
      else ({ st with line_buffer := last }, mkLineEvents cfg lines.dropLast)
    | Option.none => ({ st with line_buffer := [] }, [])
  | XMLMode.room => ({ st with dynamic_buffer := st.dynamic_buffer ++ app_data }, [])
  | _ => ({ st with text_buffer := st.text_buffer ++ app_data }, [])

/-- `XMLProtocol._handle_xml_text`: returns the new state, the grown
application-data buffer, the events fired, and the remaining data. -/
def handle_xml_text (fmt : String) (cfg : XMLCfg) (st : XMLSt) (data appBuf : List Byte) :
    XMLSt × List Byte × List XMLEvent × List Byte :=
  let p := partition1 LT data
  let appBuf1 := if fmt = "raw" ∨ st.gratuitous = false then appBuf ++ p.1 else appBuf
  let r := xml_text_route cfg st p.1
  (if p.2.1 then { r.1 with state := XMLSState.tag } else r.1, appBuf1, r.2, p.2.2)

/-- The branch chain of `_handle_xml_tag` after the closing `>` was found
and the tag name extracted (everything after the output-format handling;
`none` models the `IndexError` from popping an empty `_parent_modes`). -/
def dispatch_core (cfg : XMLCfg) (st : XMLSt) (tag tname : List Byte) :
    Option (XMLSt × List XMLEvent) :=
  if tname = bGratuitous then
    some ({ st with state := XMLSState.data, gratuitous := !(tag.head? == some 47) }, [])
  else if (tag.head? == some 47) = true ∧ get_xml_mode tname = some st.mode then
    match st.parent_modes with
    | [] => Option.none
    | m :: ms =>
      if st.mode = XMLMode.room then
        some ({ st with
                  state := XMLSState.data
                  dynamic_buffer := []
                  mode := m
                  parent_modes := ms },
          [XMLEvent.xmlEvent bDynamic (cfg.unescape (lstripCRLF st.dynamic_buffer))])
      else
        some ({ st with
                  state := XMLSState.data
                  text_buffer := []
                  mode := m
                  parent_modes := ms },
          [XMLEvent.xmlEvent tname (cfg.unescape st.text_buffer)])
  else if tname = bMagicL then
    some ({ st with
              state := XMLSState.data
              parent_modes := st.mode :: st.parent_modes
              mode := XMLMode.magic }, [])
  else if st.mode = XMLMode.none ∧ tname = bMovement then
    some ({ st with state := XMLSState.data },
      [XMLEvent.xmlEvent tname (cfg.direction (cfg.unescape tag))])
  else if st.mode = XMLMode.none then
    if tname = bPromptL then
      some ({ st with
                state := XMLSState.data
                parent_modes := st.mode :: st.parent_modes
                mode := XMLMode.prompt }, [])
    else if tname = bRoomL then
      some ({ st with
                state := XMLSState.data
                parent_modes := st.mode :: st.parent_modes
                mode := XMLMode.room },
        [XMLEvent.xmlEvent tname (cfg.unescape (tag.drop 5))])
    else some ({ st with state := XMLSState.data }, [])
  else if st.mode = XMLMode.room then
    if tname = bNameL then
      some ({ st with
                state := XMLSState.data
                parent_modes := st.mode :: st.parent_modes
                mode := XMLMode.name }, [])
    else if tname = bDescriptionL then
      some ({ st with
                state := XMLSState.data
                parent_modes := st.mode :: st.parent_modes
                mode := XMLMode.description }, [])
    else if tname = bExitsL then
      some ({ st with
                state := XMLSState.data
                parent_modes := st.mode :: st.parent_modes
                mode := XMLMode.exits }, [])
    else if tname = bTerrainL then
      some ({ st with
                state := XMLSState.data
                parent_modes := st.mode :: st.parent_modes
                mode := XMLMode.terrain }, [])
    else some ({ st with state := XMLSState.data }, [])
  else some ({ st with state := XMLSState.data }, [])

/-- `_handle_xml_tag` after the closing `>` was found: tag-name
extraction, output-format handling, then `dispatch_core`. -/
def dispatch_tag (fmt : String) (cfg : XMLCfg) (st : XMLSt) (tag appBuf : List Byte) :
    Option (XMLSt × List Byte × List XMLEvent) :=
  match tag_name tag with
  | Option.none => Option.none
  | some tname =>
    let appBuf1 :=
      if fmt = "raw" then appBuf ++ [LT] ++ tag ++ [GT]
      else if fmt = "tintin" ∧ st.gratuitous = false then
        appBuf ++ get_tintin_tag_replacement tag
      else appBuf
    match dispatch_core cfg st tag tname with
    | some (st1, evs) => some (st1, appBuf1, evs)
    | Option.none => Option.none

/-- `XMLProtocol._handle_xml_tag`. -/
def handle_xml_tag (fmt : String) (cfg : XMLCfg) (st : XMLSt) (data appBuf : List Byte) :
    Option (XMLSt × List Byte × List XMLEvent × List Byte) :=
  let p := partition1 GT data
  if p.2.1 = false then
    some ({ st with tag_buffer := st.tag_buffer ++ p.1 }, appBuf, [], p.2.2)
  else
    match dispatch_tag fmt cfg { st with tag_buffer := [] }
        (stripWS (st.tag_buffer ++ p.1)) appBuf with
    | some (st1, appBuf1, evs) => some (st1, appBuf1, evs, p.2.2)
    | Option.none => Option.none

/-- The `while data` loop of `XMLProtocol.on_data_received`, fuelled.
Every iteration on nonempty data consumes at least one byte, so fuel
`data.length` is exact. -/
def xmlLoopF : Nat → String → XMLCfg → XMLSt → List Byte → List Byte →
    Option (XMLSt × List Byte × List XMLEvent)
  | _, _, _, st, appBuf, [] => some (st, appBuf, [])
  | 0, _, _, _, _, _ :: _ => Option.none
  | fuel + 1, fmt, cfg, st, appBuf, b :: rest =>
    match st.state with
    | XMLSState.data =>
      let r := handle_xml_text fmt cfg st (b :: rest) appBuf
      match xmlLoopF fuel fmt cfg r.1 r.2.1 r.2.2.2 with
      | some (st2, appBuf2, evs2) => some (st2, appBuf2, r.2.2.1 ++ evs2)
      | Option.none => Option.none
    | XMLSState.tag =>
      match handle_xml_tag fmt cfg st (b :: rest) appBuf with
      | Option.none => Option.none
      | some (st1, appBuf1, evs1, rest1) =>
        match xmlLoopF fuel fmt cfg st1 appBuf1 rest1 with
        | some (st2, appBuf2, evs2) => some (st2, appBuf2, evs1 ++ evs2)
        | Option.none => Option.none

/-- `XMLProtocol.on_data_received`: returns the new state, the events
fired, and the chunk forwarded to the next handler (`[]` when nothing is
forwarded). -/
def xml_on_data_received (fmt : String) (cfg : XMLCfg) (st : XMLSt) (data : List Byte) :
    Option (XMLSt × List XMLEvent × List Byte) :=
  match xmlLoopF data.length fmt cfg st [] data with
  | some (st1, appBuf, evs) =>
    some (st1, evs,
      if appBuf = [] then []
      else if fmt = "raw" then appBuf else cfg.unescape appBuf)
  | Option.none => Option.none

/-- Any successful `dispatch_core` step returns to the DATA state and
leaves the tag buffer untouched. -/
theorem dispatch_core_inv (cfg : XMLCfg) (st : XMLSt) (tag tname : List Byte)
    (res : XMLSt × List XMLEvent) (h : dispatch_core cfg st tag tname = some res) :
    res.1.state = XMLSState.data ∧ res.1.tag_buffer = st.tag_buffer := by
  unfold dispatch_core at h
  repeat' split at h
  all_goals first
    | (injection h; done)
    | (injection h with h2; subst h2; exact ⟨rfl, rfl⟩)

/-- C4, counterexample: from a fresh `XMLProtocol` (mode `NONE`, empty
parent-mode stack), the unmatched-looking closing tag `</none>` is in
fact treated as matching the current mode and pops the empty stack,
raising `IndexError` (modelled `none`); and the unmatched closing tag
`</room>` is NOT ignored: it opens ROOM mode, changing the current mode
and pushing onto the stack. -/
theorem claim_C4_counterexample :
    xml_on_data_received "normal" xmlCfgId xmlInit
        [60, 47, 110, 111, 110, 101, 62] = Option.none ∧
    xml_on_data_received "normal" xmlCfgId xmlInit
        [60, 47, 114, 111, 111, 109, 62] =
      some (⟨XMLSState.data, [], [], [], [], false, XMLMode.room, [XMLMode.none]⟩,
        [XMLEvent.xmlEvent [114, 111, 111, 109] []], []) := by
  exact ⟨rfl, rfl⟩

/-- C4 (amended): mode-stack discipline of a successful
`_handle_xml_tag` dispatch on a closing tag.  (1) If the tag name maps
to the current mode, the step pops exactly the top of the parent-mode
stack (in particular the stack was nonempty — on an empty stack the
source raises `IndexError` instead, see the counterexample).  (2) If the
tag name does not map to the current mode, the close is ignored as far
as mode and stack are concerned, UNLESS the name is one of the
mode-opening keywords (`magic` anywhere, `prompt`/`room` in mode NONE,
`name`/`description`/`exits`/`terrain` in mode ROOM), which the source
treats as opening tags even when written as closing tags. -/
theorem claim_C4 (cfg : XMLCfg) (st : XMLSt) (tag tname : List Byte)
    (res : XMLSt × List XMLEvent)
    (h : dispatch_core cfg st tag tname = some res)
    (hclose : tag.head? = some 47) :
    (get_xml_mode tname = some st.mode →
      st.parent_modes = res.1.mode :: res.1.parent_modes) ∧
    (get_xml_mode tname ≠ some st.mode →
      tname ≠ bMagicL →
      (st.mode = XMLMode.none → tname ≠ bPromptL ∧ tname ≠ bRoomL) →
      (st.mode = XMLMode.room →
        tname ≠ bNameL ∧ tname ≠ bDescriptionL ∧ tname ≠ bExitsL ∧ tname ≠ bTerrainL) →
      res.1.mode = st.mode ∧ res.1.parent_modes = st.parent_modes) := by
  have hcb : (tag.head? == some 47) = true := by
    rw [hclose]; rfl
  constructor
  · intro hmatch
    by_cases hg : tname = bGratuitous
    · subst hg
      have h0 : get_xml_mode bGratuitous = Option.none := by decide
      rw [h0] at hmatch
      exact Option.noConfusion hmatch
    · unfold dispatch_core at h
      rw [if_neg hg] at h
      rw [if_pos ⟨hcb, hmatch⟩] at h
      rcases hpm : st.parent_modes with - | ⟨m, ms⟩
      · rw [hpm] at h
        exact Option.noConfusion h
      · rw [hpm] at h
        dsimp only at h
        by_cases hr : st.mode = XMLMode.room
        · rw [if_pos hr] at h
          injection h with h2
          subst h2
          rfl
        · rw [if_neg hr] at h
          injection h with h2
          subst h2
          rfl
  · intro hnm hmagic hnone hroom
    unfold dispatch_core at h
    by_cases hg : tname = bGratuitous
    · rw [if_pos hg] at h
      injection h with h2
      subst h2
      exact ⟨rfl, rfl⟩
    · rw [if_neg hg] at h
      rw [if_neg (fun hand => hnm hand.2)] at h
      rw [if_neg hmagic] at h
      by_cases hmv : st.mode = XMLMode.none ∧ tname = bMovement
      · rw [if_pos hmv] at h
        injection h with h2
        subst h2
        exact ⟨rfl, rfl⟩
      · rw [if_neg hmv] at h
        by_cases hn : st.mode = XMLMode.none
        · rw [if_pos hn] at h
          rw [if_neg (hnone hn).1] at h
          rw [if_neg (hnone hn).2] at h
          injection h with h2
          subst h2
          exact ⟨rfl, rfl⟩
        · rw [if_neg hn] at h
          by_cases hr : st.mode = XMLMode.room
          · rw [if_pos hr] at h
            obtain ⟨h1, h2, h3, h4⟩ := hroom hr
            rw [if_neg h1, if_neg h2, if_neg h3, if_neg h4] at h
            injection h with h2
            subst h2
            exact ⟨rfl, rfl⟩
          · rw [if_neg hr] at h
            injection h with h2
            subst h2
            exact ⟨rfl, rfl⟩

/-- Witness for C4: the benign closing tag `</foo>` in mode NONE is
dispatched successfully and leaves mode and stack unchanged. -/
theorem claim_C4_witness :
    dispatch_core xmlCfgId xmlInit [47, 102, 111, 111] [102, 111, 111] =
      some (xmlInit, []) ∧
    ((get_xml_mode [102, 111, 111] = some xmlInit.mode →
        xmlInit.parent_modes = (xmlInit, ([] : List XMLEvent)).1.mode ::
          (xmlInit, ([] : List XMLEvent)).1.parent_modes) ∧
      (get_xml_mode [102, 111, 111] ≠ some xmlInit.mode →
        [102, 111, 111] ≠ bMagicL →
        (xmlInit.mode = XMLMode.none →
          [102, 111, 111] ≠ bPromptL ∧ [102, 111, 111] ≠ bRoomL) →
        (xmlInit.mode = XMLMode.room →
          [102, 111, 111] ≠ bNameL ∧ [102, 111, 111] ≠ bDescriptionL ∧
            [102, 111, 111] ≠ bExitsL ∧ [102, 111, 111] ≠ bTerrainL) →
        (xmlInit, ([] : List XMLEvent)).1.mode = xmlInit.mode ∧
          (xmlInit, ([] : List XMLEvent)).1.parent_modes = xmlInit.parent_modes)) :=
  ⟨rfl, claim_C4 xmlCfgId xmlInit [47, 102, 111, 111] [102, 111, 111]
    (xmlInit, []) rfl rfl⟩

/-! ### Raw-mode rendering (for C5)

What raw mode actually forwards: text is copied verbatim, each complete
tag `<...>` is re-emitted as `<` ++ whitespace-stripped content ++ `>`,
and a trailing tag whose `>` has not arrived is withheld. -/

def rawRenderF : Nat → List Byte → List Byte
  | 0, _ => []
  | fuel + 1, data =>
    let p := partition1 LT data
    if p.2.1 then
      let q := partition1 GT p.2.2
      if q.2.1 then p.1 ++ [LT] ++ stripWS q.1 ++ [GT] ++ rawRenderF fuel q.2.2
      else p.1
    else p.1

def rawRender (data : List Byte) : List Byte := rawRenderF data.length data

/-- What raw mode forwards for the remaining data when the parser is
mid-tag with an empty tag buffer. -/
def tagRender (data : List Byte) : List Byte :=
  let q := partition1 GT data
  if q.2.1 then [LT] ++ stripWS q.1 ++ [GT] ++ rawRender q.2.2 else []

theorem rawRenderF_nil (fuel : Nat) : rawRenderF fuel [] = [] := by
  cases fuel <;> simp [rawRenderF, partition1]

theorem rawRenderF_fuel :
    ∀ fuel fuel' data, data.length ≤ fuel → data.length ≤ fuel' →
      rawRenderF fuel data = rawRenderF fuel' data := by
  intro fuel
  induction fuel with
  | zero =>
    intro fuel' data h _
    have hd : data = [] := List.length_eq_zero.mp (Nat.le_zero.mp h)
    subst hd
    rw [rawRenderF_nil, rawRenderF_nil]
  | succ f ih =>
    intro fuel' data h h'
    rcases data with - | ⟨b, rest⟩
    · rw [rawRenderF_nil, rawRenderF_nil]
    rcases fuel' with - | f'
    · simp at h'
    simp only [rawRenderF]
    by_cases hp : (partition1 LT (b :: rest)).2.1 = true
    · rw [if_pos hp, if_pos hp]
      by_cases hq : (partition1 GT (partition1 LT (b :: rest)).2.2).2.1 = true
      · rw [if_pos hq, if_pos hq]
        have h1 : (partition1 LT (b :: rest)).2.2.length < (b :: rest).length :=
          partition1_rest_length_lt LT (b :: rest) (by simp)
        have hpne : (partition1 LT (b :: rest)).2.2 ≠ [] := by
          intro he
          rw [he] at hq
          simp [partition1] at hq
        have h2 := partition1_rest_length_lt GT (partition1 LT (b :: rest)).2.2 hpne
        have hlen : (b :: rest).length = rest.length + 1 := rfl
        rw [ih f' (partition1 GT (partition1 LT (b :: rest)).2.2).2.2 (by omega) (by omega)]
      · rw [if_neg hq, if_neg hq]
    · rw [if_neg hp, if_neg hp]

theorem rawRender_eq (data : List Byte) :
    rawRender data = (partition1 LT data).1 ++
      (if (partition1 LT data).2.1 then tagRender (partition1 LT data).2.2 else []) := by
  rcases data with - | ⟨b, rest⟩
  · simp [rawRender, rawRenderF_nil, partition1]
  · show rawRenderF (rest.length + 1) (b :: rest) = _
    simp only [rawRenderF]
    by_cases hp : (partition1 LT (b :: rest)).2.1 = true
    · rw [if_pos hp, if_pos hp]
      unfold tagRender
      by_cases hq : (partition1 GT (partition1 LT (b :: rest)).2.2).2.1 = true
      · rw [if_pos hq, if_pos hq]
        have h1 : (partition1 LT (b :: rest)).2.2.length < (b :: rest).length :=
          partition1_rest_length_lt LT (b :: rest) (by simp)
        have hpne : (partition1 LT (b :: rest)).2.2 ≠ [] := by
          intro he
          rw [he] at hq
          simp [partition1] at hq
        have h2 := partition1_rest_length_lt GT (partition1 LT (b :: rest)).2.2 hpne
        have hrw : rawRenderF rest.length (partition1 GT (partition1 LT (b :: rest)).2.2).2.2 =
            rawRender (partition1 GT (partition1 LT (b :: rest)).2.2).2.2 := by
          apply rawRenderF_fuel
          · have hlen : (b :: rest).length = rest.length + 1 := rfl
            omega
          · exact Nat.le_refl _
        rw [hrw]
        simp
      · rw [if_neg hq, if_neg hq]
        simp
    · rw [if_neg hp, if_neg hp]
      simp

/-- `xml_text_route` never changes the parse state or the tag buffer. -/
theorem xml_text_route_inv (cfg : XMLCfg) (st : XMLSt) (a : List Byte) :
    (xml_text_route cfg st a).1.state = st.state ∧
    (xml_text_route cfg st a).1.tag_buffer = st.tag_buffer := by
  unfold xml_text_route
  cases st.mode
  case none =>
    dsimp only
    rcases (splitlinesKeep (st.line_buffer ++ a)).getLast? with - | last
    · exact ⟨rfl, rfl⟩
    · dsimp only
      by_cases he : endsCRLF last = true
      · rw [if_pos he]
        exact ⟨rfl, rfl⟩
      · rw [if_neg he]
        exact ⟨rfl, rfl⟩
  all_goals exact ⟨rfl, rfl⟩

/-- State, tag-buffer and rest behaviour of `_handle_xml_text`. -/
theorem handle_xml_text_state (fmt : String) (cfg : XMLCfg) (st : XMLSt)
    (data appBuf : List Byte) :
    (handle_xml_text fmt cfg st data appBuf).1.state =
      (if (partition1 LT data).2.1 then XMLSState.tag else st.state) ∧
    (handle_xml_text fmt cfg st data appBuf).1.tag_buffer = st.tag_buffer ∧
    (handle_xml_text fmt cfg st data appBuf).2.2.2 = (partition1 LT data).2.2 := by
  obtain ⟨h1, h2⟩ := xml_text_route_inv cfg st (partition1 LT data).1
  unfold handle_xml_text
  dsimp only
  by_cases hp : (partition1 LT data).2.1 = true
  · rw [if_pos hp, if_pos hp]
    exact ⟨rfl, h2, rfl⟩
  · rw [if_neg hp, if_neg hp]
    exact ⟨h1, h2, rfl⟩

/-- In raw mode `_handle_xml_text` appends exactly the consumed text to
the application-data buffer. -/
theorem handle_xml_text_raw_buf (cfg : XMLCfg) (st : XMLSt) (data appBuf : List Byte) :
    (handle_xml_text "raw" cfg st data appBuf).2.1 = appBuf ++ (partition1 LT data).1 := by
  unfold handle_xml_text
  dsimp only
  rw [if_pos (Or.inl rfl)]

/-- In raw mode a successful `dispatch_tag` appends exactly
`<` ++ tag ++ `>` and returns to DATA with the tag buffer of its input
state. -/
theorem dispatch_tag_raw (cfg : XMLCfg) (st : XMLSt) (tag appBuf : List Byte)
    (res : XMLSt × List Byte × List XMLEvent)
    (h : dispatch_tag "raw" cfg st tag appBuf = some res) :
    res.2.1 = appBuf ++ [LT] ++ tag ++ [GT] ∧
    res.1.state = XMLSState.data ∧ res.1.tag_buffer = st.tag_buffer := by
  unfold dispatch_tag at h
  rcases htn : tag_name tag with - | tname
  · rw [htn] at h
    exact Option.noConfusion h
  · rw [htn] at h
    dsimp only at h
    rw [if_pos rfl] at h
    rcases hc : dispatch_core cfg st tag tname with - | ⟨st1, evs⟩
    · rw [hc] at h
      exact Option.noConfusion h
    · rw [hc] at h
      injection h with h2
      subst h2
      obtain ⟨hs, ht⟩ := dispatch_core_inv cfg st tag tname (st1, evs) hc
      exact ⟨rfl, hs, ht⟩

/-- Raw-mode behaviour of a successful `_handle_xml_tag` step from an
empty tag buffer. -/
theorem handle_xml_tag_raw (cfg : XMLCfg) (st : XMLSt) (data appBuf : List Byte)
    (res : XMLSt × List Byte × List XMLEvent × List Byte)
    (htb : st.tag_buffer = [])
    (h : handle_xml_tag "raw" cfg st data appBuf = some res) :
    ((partition1 GT data).2.1 = true →
      res.2.1 = appBuf ++ [LT] ++ stripWS (partition1 GT data).1 ++ [GT] ∧
      res.1.state = XMLSState.data ∧ res.1.tag_buffer = [] ∧
      res.2.2.2 = (partition1 GT data).2.2) ∧
    ((partition1 GT data).2.1 = false → res.2.1 = appBuf ∧ res.2.2.2 = []) := by
  unfold handle_xml_tag at h
  dsimp only at h
  by_cases hq : (partition1 GT data).2.1 = false
  · rw [if_pos hq] at h
    injection h with h2
    subst h2
    constructor
    · intro ht
      rw [ht] at hq
      exact Bool.noConfusion hq
    · intro _
      exact ⟨rfl, (partition1_not_found hq).2⟩
  · rw [if_neg hq] at h
    have hq' : (partition1 GT data).2.1 = true := by
      cases hb : (partition1 GT data).2.1
      · exact absurd hb hq
      · rfl
    rw [htb] at h
    simp only [List.nil_append] at h
    rcases hdt : dispatch_tag "raw" cfg { st with tag_buffer := [] }
        (stripWS (partition1 GT data).1) appBuf with - | ⟨st1, ab1, evs1⟩
    · rw [hdt] at h
      exact Option.noConfusion h
    · rw [hdt] at h
      injection h with h2
      subst h2
      obtain ⟨hb1, hs1, ht1⟩ := dispatch_tag_raw cfg { st with tag_buffer := [] }
        (stripWS (partition1 GT data).1) appBuf (st1, ab1, evs1) hdt
      refine ⟨fun _ => ⟨hb1, hs1, ht1, rfl⟩, fun hf => ?_⟩
      rw [hf] at hq'
      exact Bool.noConfusion hq'

/-- The raw-mode loop invariant: from a state with an empty tag buffer,
a successful run appends exactly the raw rendering of the input to the
application-data buffer. -/
theorem xmlLoopF_raw (cfg : XMLCfg) :
    ∀ fuel data (st : XMLSt) (appBuf : List Byte) (res : XMLSt × List Byte × List XMLEvent),
      st.tag_buffer = [] →
      xmlLoopF fuel "raw" cfg st appBuf data = some res →
      res.2.1 = appBuf ++
        (if st.state = XMLSState.data then rawRender data else tagRender data) := by
  intro fuel
  induction fuel with
  | zero =>
    intro data st appBuf res htb h
    rcases data with - | ⟨b, rest⟩
    · simp only [xmlLoopF] at h
      injection h with h2
      subst h2
      simp [rawRender, rawRenderF_nil, tagRender, partition1]
    · simp only [xmlLoopF] at h
      exact Option.noConfusion h
  | succ f ih =>
    intro data st appBuf res htb h
    rcases data with - | ⟨b, rest⟩
    · simp only [xmlLoopF] at h
      injection h with h2
      subst h2
      simp [rawRender, rawRenderF_nil, tagRender, partition1]
    rcases hst : st.state with - | -
    · -- DATA state
      simp only [xmlLoopF, hst] at h
      rcases hrec : xmlLoopF f "raw" cfg
          (handle_xml_text "raw" cfg st (b :: rest) appBuf).1
          (handle_xml_text "raw" cfg st (b :: rest) appBuf).2.1
          (handle_xml_text "raw" cfg st (b :: rest) appBuf).2.2.2 with - | ⟨st2, ab2, evs2⟩
      · rw [hrec] at h
        exact Option.noConfusion h
      · rw [hrec] at h
        injection h with h2
        subst h2
        obtain ⟨hs, htb', hrest⟩ := handle_xml_text_state "raw" cfg st (b :: rest) appBuf
        have hbuf := handle_xml_text_raw_buf cfg st (b :: rest) appBuf
        have hres2 := ih _ _ _ _ (htb'.trans htb) hrec
        rw [hbuf, hrest] at hres2
        rw [if_pos rfl, rawRender_eq]
        by_cases hp : (partition1 LT (b :: rest)).2.1 = true
        · rw [if_pos hp] at hs
          rw [hs] at hres2
          rw [if_neg (by simp)] at hres2
          rw [if_pos hp]
          simpa [List.append_assoc] using hres2
        · rw [if_neg hp] at hs
          rw [hs, hst] at hres2
          rw [if_pos rfl] at hres2
          rw [if_neg hp]
          have hrest0 : (partition1 LT (b :: rest)).2.2 = [] := by
            cases hb2 : (partition1 LT (b :: rest)).2.1
            · exact (partition1_not_found hb2).2
            · exact absurd hb2 hp
          rw [hrest0] at hres2
          rw [rawRender] at hres2
          simpa [rawRenderF_nil] using hres2
    · -- TAG state
      simp only [xmlLoopF, hst] at h
      rcases hht : handle_xml_tag "raw" cfg st (b :: rest) appBuf with - | ⟨st1, ab1, evs1, rest1⟩
      · rw [hht] at h
        exact Option.noConfusion h
      · rw [hht] at h
        dsimp only at h
        rcases hrec : xmlLoopF f "raw" cfg st1 ab1 rest1 with - | ⟨st2, ab2, evs2⟩
        · rw [hrec] at h
          exact Option.noConfusion h
        · rw [hrec] at h
          injection h with h2
          subst h2
          obtain ⟨hsep, hnosep⟩ :=
            handle_xml_tag_raw cfg st (b :: rest) appBuf (st1, ab1, evs1, rest1) htb hht
          rw [if_neg (fun hx => XMLSState.noConfusion hx)]
          by_cases hq : (partition1 GT (b :: rest)).2.1 = true
          · obtain ⟨hab1, hs1, ht1, hr1⟩ := hsep hq
            have hres2 := ih _ _ _ _ ht1 hrec
            rw [if_pos hs1] at hres2
            dsimp only at hab1 hr1
            rw [hab1, hr1] at hres2
            unfold tagRender
            rw [if_pos hq]
            dsimp only at hres2 ⊢
            rw [hres2]
            simp [List.append_assoc]
          · have hq0 : (partition1 GT (b :: rest)).2.1 = false := by
              cases hb2 : (partition1 GT (b :: rest)).2.1
              · rfl
              · exact absurd hb2 hq
            obtain ⟨hab1, hr1⟩ := hnosep hq0
            dsimp only at hab1 hr1
            rw [hr1] at hrec
            simp only [xmlLoopF, Option.some.injEq, Prod.mk.injEq] at hrec
            obtain ⟨h3a, h3b, h3c⟩ := hrec
            unfold tagRender
            rw [if_neg hq]
            dsimp only
            rw [← h3b, hab1]
            simp

/-- C5, counterexample: in raw mode the input `"< a>"` is forwarded as
`"<a>"` — the tag content is whitespace-stripped, so raw mode is not a
byte-for-byte identity. -/
theorem claim_C5_counterexample :
    xml_on_data_received "raw" xmlCfgId xmlInit [60, 32, 97, 62] =
      some (xmlInit, [], [60, 97, 62]) ∧
    [60, 97, 62] ≠ [60, 32, 97, 62] := by
  exact ⟨rfl, by decide⟩

/-- C5 (amended): in raw mode, a successful `on_data_received` run from
a fresh `XMLProtocol` forwards exactly `rawRender data`: the input with
each complete tag's content whitespace-stripped and re-bracketed, and
any trailing unterminated tag withheld.  In particular, whenever
`rawRender data = data` (all tags complete and strip-invariant) the
forwarded bytes equal the input byte-for-byte. -/
theorem claim_C5 (cfg : XMLCfg) (data : List Byte) (st' : XMLSt)
    (evs : List XMLEvent) (out : List Byte)
    (h : xml_on_data_received "raw" cfg xmlInit data = some (st', evs, out)) :
    out = rawRender data ∧ (rawRender data = data → out = data) := by
  unfold xml_on_data_received at h
  rcases hl : xmlLoopF data.length "raw" cfg xmlInit [] data with - | ⟨st1, ab1, evs1⟩
  · rw [hl] at h
    exact Option.noConfusion h
  · rw [hl] at h
    injection h with h2
    have hab : ab1 = rawRender data := by
      have hb := xmlLoopF_raw cfg data.length data xmlInit [] (st1, ab1, evs1) rfl hl
      simpa using hb
    simp only [Prod.mk.injEq] at h2
    obtain ⟨-, -, h2c⟩ := h2
    have hout : out = rawRender data := by
      rw [← h2c, hab]
      by_cases hz : rawRender data = []
      · rw [if_pos hz, hz]
      · rw [if_neg hz]
        simp
    exact ⟨hout, fun hid => hout.trans hid⟩

/-- Witness for C5: the input `"a<b>c"` is strip-invariant and is
forwarded unchanged. -/
theorem claim_C5_witness :
    xml_on_data_received "raw" xmlCfgId xmlInit [97, 60, 98, 62, 99] =
      some (⟨XMLSState.data, [], [], [], [97, 99], false, XMLMode.none, []⟩,
        [], [97, 60, 98, 62, 99]) ∧
    ([97, 60, 98, 62, 99] : List Byte) = rawRender [97, 60, 98, 62, 99] ∧
    (rawRender [97, 60, 98, 62, 99] = [97, 60, 98, 62, 99] →
      ([97, 60, 98, 62, 99] : List Byte) = [97, 60, 98, 62, 99]) :=
  ⟨rfl, claim_C5 xmlCfgId [97, 60, 98, 62, 99]
    ⟨XMLSState.data, [], [], [], [97, 99], false, XMLMode.none, []⟩
    [] [97, 60, 98, 62, 99] rfl⟩

/-! ## MPI protocol (`mpi.py`, class `MPIProtocol`)

The remote-editing command handlers (`edit`, `view`, files, threads) are
outside the loop being verified; only the `on_data_received` state
machine is embedded.  Its observable effects are forwarded application
chunks (`super().on_data_received`), dispatched MPI commands
(`on_command`) and the invalid-length logger warning.  The loop can
re-enqueue bytes (the invalid-length branch), so it is fuelled with a
generous quadratic budget; `none` marks fuel exhaustion (never reached
for the inputs of the claims, whose runs take at most two steps per
input byte). -/

/-- `MPI_INIT = b"~$#E"`. -/
def MPI_INIT : List Byte := [126, 36, 35, 69]

/-- `pat.isPrefixOf l` as a Boolean, i.e. `l.startswith(pat)` reversed:
`isPrefixB pat l = true` iff `pat` is a prefix of `l`. -/
def isPrefixB : List Byte → List Byte → Bool
  | [], _ => true
  | _ :: _, [] => false
  | a :: as, b :: bs => a == b && isPrefixB as bs

/-- `bytearray.isdigit()`: nonempty and all ASCII digits. -/
def isDigits (l : List Byte) : Bool :=
  (!l.isEmpty) && l.all (fun b => 48 ≤ b && b ≤ 57)

/-- `int(buffer)` for a digit string. -/
def digitsToNat (l : List Byte) : Nat :=
  l.foldl (fun acc b => acc * 10 + (b - 48)) 0

/-- `MPIState` enum from `mpi.py`. -/
inductive MPIState where
  | data
  | newline
  | init
  | command
  | length
  | body
  deriving DecidableEq, Repr

/-- The mutable fields of an `MPIProtocol` instance: `state`,
`_mpi_buffer`, `_command` (empty when deleted/unset) and `_length`
(`0` when deleted/unset). -/
structure MPISt where
  state : MPIState
  mpi_buffer : List Byte
  command : List Byte
  length : Nat
  deriving DecidableEq, Repr

/-- A fresh `MPIProtocol`. -/
def mpiProtoInit : MPISt := ⟨.data, [], [], 0⟩

/-- Observable effects of `MPIProtocol.on_data_received`. -/
inductive MPIEvent where
  | forward (chunk : List Byte)
  | mpiCommand (command : List Byte) (body : List Byte)
  | warn
  deriving DecidableEq, Repr

/-- The `while data` loop of `MPIProtocol.on_data_received`, fuelled.
Returns the final state, the pending application-data buffer, and the
events fired inside the loop (the final flush is done by
`mpi_on_data_received`). -/
def mpiLoopF : Nat → MPISt → List Byte → List Byte → Option (MPISt × List Byte × List MPIEvent)
  | _, st, appBuf, [] => some (st, appBuf, [])
  | 0, _, _, _ :: _ => Option.none
  | fuel + 1, st, appBuf, b :: rest =>
    match st.state with
    | MPIState.data =>
      let p := partition1 10 (b :: rest)
      mpiLoopF fuel
        { st with state := if p.2.1 then MPIState.newline else MPIState.data }
        (appBuf ++ p.1 ++ (if p.2.1 then [10] else [])) p.2.2
    | MPIState.newline =>
      if isPrefixB ((b :: rest).take 4) MPI_INIT then
        mpiLoopF fuel { st with state := MPIState.init } appBuf (b :: rest)
      else
        mpiLoopF fuel { st with state := MPIState.data } appBuf (b :: rest)
    | MPIState.init =>
      let remaining := 4 - st.mpi_buffer.length
      let buf := st.mpi_buffer ++ (b :: rest).take remaining
      let data2 := (b :: rest).drop remaining
      if buf = MPI_INIT then
        match mpiLoopF fuel { st with
            mpi_buffer := []
            state := MPIState.command } [] data2 with
        | some (st2, ab2, evs2) =>
          some (st2, ab2, (if appBuf = [] then [] else [MPIEvent.forward appBuf]) ++ evs2)
        | Option.none => Option.none
      else if isPrefixB buf MPI_INIT = false then
        mpiLoopF fuel { st with
          mpi_buffer := []
          state := MPIState.data } appBuf (buf ++ data2)
      else
        mpiLoopF fuel { st with mpi_buffer := buf } appBuf data2
    | MPIState.command =>
      mpiLoopF fuel { st with
        command := [b]
        state := MPIState.length } appBuf rest
    | MPIState.length =>
      let p := partition1 10 (b :: rest)
      let buf := st.mpi_buffer ++ p.1
      if isDigits buf = false then
        match mpiLoopF fuel { st with
            mpi_buffer := []
            state := MPIState.data } appBuf
            (MPI_INIT ++ st.command ++ buf ++ (if p.2.1 then [10] else []) ++ p.2.2) with
        | some (st2, ab2, evs2) => some (st2, ab2, MPIEvent.warn :: evs2)
        | Option.none => Option.none
      else if p.2.1 then
        mpiLoopF fuel { st with
          mpi_buffer := []
          length := digitsToNat buf
          state := MPIState.body } appBuf p.2.2
      else
        mpiLoopF fuel { st with mpi_buffer := buf } appBuf p.2.2
    | MPIState.body =>
      let remaining := st.length - st.mpi_buffer.length
      let buf := st.mpi_buffer ++ (b :: rest).take remaining
      let data2 := (b :: rest).drop remaining
      if buf.length = st.length then
        match mpiLoopF fuel { st with
            mpi_buffer := []
            state := MPIState.data } appBuf data2 with
        | some (st2, ab2, evs2) => some (st2, ab2, MPIEvent.mpiCommand st.command buf :: evs2)
        | Option.none => Option.none
      else
        mpiLoopF fuel { st with mpi_buffer := buf } appBuf data2

/-- Fuel budget for `mpiLoopF`: quadratic in the input, comfortably
above the worst case (each invalid-length re-enqueue reprocesses at most
a linear amount, and each cycle permanently consumes input). -/
def mpiFuel (st : MPISt) (data : List Byte) : Nat :=
  8 * (data.length + st.mpi_buffer.length + st.length + 2) *
    (data.length + st.mpi_buffer.length + st.length + 2)

/-- `MPIProtocol.on_data_received`: run the loop, then flush any pending
application data. -/
def mpi_on_data_received (st : MPISt) (data : List Byte) : Option (MPISt × List MPIEvent) :=
  match mpiLoopF (mpiFuel st data) st [] data with
  | some (st2, appBuf, evs) =>
    some (st2, evs ++ (if appBuf = [] then [] else [MPIEvent.forward appBuf]))
  | Option.none => Option.none

theorem mpiLoopF_nil (fuel : Nat) (st : MPISt) (appBuf : List Byte) :
    mpiLoopF fuel st appBuf [] = some (st, appBuf, []) := by
  cases fuel <;> rfl

theorem partition1_found_decomp (s : Byte) :
    ∀ l : List Byte, (partition1 s l).2.1 = true →
      l = (partition1 s l).1 ++ s :: (partition1 s l).2.2 := by
  intro l
  induction l with
  | nil => intro h; simp [partition1] at h
  | cons x rest ih =>
    intro h
    by_cases hx : x = s
    · subst hx
      rw [partition1_cons_eq]
      rfl
    · rw [partition1_cons_ne s hx] at h ⊢
      simp only [List.cons_append]
      exact congrArg (List.cons x) (ih h)

/-- The input never places a (partial or full) MPI sentinel directly
after a line feed: after any `LF` with more data following, the
following bytes do not look like the start of `~$#E`. -/
def lfSafe (s : List Byte) : Prop :=
  ∀ pre post, s = pre ++ 10 :: post → post ≠ [] →
    isPrefixB (post.take 4) MPI_INIT = false

theorem lfSafe_of_append (a : List Byte) {b s : List Byte} (hs : s = a ++ b)
    (h : lfSafe s) : lfSafe b := by
  intro pre post hb hpost
  exact h (a ++ pre) post (by rw [hs, hb, List.append_assoc]) hpost

/-- Pass-through invariant: from the DATA state with an empty MPI
buffer, an `lfSafe` input is appended verbatim to the application-data
buffer, with no events fired inside the loop. -/
theorem mpiLoopF_pass :
    ∀ n (s : List Byte) (cmd : List Byte) (len : Nat) (appBuf : List Byte) (fuel : Nat),
      s.length ≤ n →
      2 * s.length + 1 ≤ fuel →
      lfSafe s →
      ∃ stE, mpiLoopF fuel ⟨MPIState.data, [], cmd, len⟩ appBuf s =
        some (stE, appBuf ++ s, []) := by
  intro n
  induction n with
  | zero =>
    intro s cmd len appBuf fuel hn _ _
    have hs : s = [] := List.length_eq_zero.mp (Nat.le_zero.mp hn)
    subst hs
    exact ⟨⟨MPIState.data, [], cmd, len⟩, by rw [mpiLoopF_nil]; simp⟩
  | succ n ih =>
    intro s cmd len appBuf fuel hn hfuel hsafe
    rcases s with - | ⟨b, rest⟩
    · exact ⟨⟨MPIState.data, [], cmd, len⟩, by rw [mpiLoopF_nil]; simp⟩
    rcases fuel with - | f
    · omega
    simp only [mpiLoopF]
    by_cases hp : (partition1 10 (b :: rest)).2.1 = true
    · rw [if_pos hp, if_pos hp]
      have hdec := partition1_found_decomp 10 (b :: rest) hp
      rcases hr : (partition1 10 (b :: rest)).2.2 with - | ⟨c, rest2⟩
      · refine ⟨⟨MPIState.newline, [], cmd, len⟩, ?_⟩
        rw [mpiLoopF_nil]
        have hbuf : appBuf ++ (partition1 10 (b :: rest)).1 ++ [10] = appBuf ++ (b :: rest) := by
          conv_rhs => rw [hdec]
          rw [hr]
          simp
        rw [hbuf]
      · rcases f with - | f2
        · have h1 : (partition1 10 (b :: rest)).2.2.length < (b :: rest).length :=
            partition1_rest_length_lt 10 (b :: rest) (by simp)
          rw [hr] at h1
          simp only [List.length_cons] at h1 hn hfuel
          omega
        simp only [mpiLoopF]
        have hpre : isPrefixB ((c :: rest2).take 4) MPI_INIT = false := by
          apply hsafe (partition1 10 (b :: rest)).1 (c :: rest2)
          · conv_rhs => rw [← hr]
            exact hdec
          · simp
        rw [if_neg (by rw [hpre]; exact Bool.noConfusion)]
        have hlen : (partition1 10 (b :: rest)).2.2.length < (b :: rest).length :=
          partition1_rest_length_lt 10 (b :: rest) (by simp)
        rw [hr] at hlen
        have hsafe2 : lfSafe (c :: rest2) := by
          refine lfSafe_of_append ((partition1 10 (b :: rest)).1 ++ [10]) ?_ hsafe
          conv_rhs => rw [← hr]
          simpa using hdec
        obtain ⟨stE, hrun⟩ := ih (c :: rest2) cmd len
          (appBuf ++ (partition1 10 (b :: rest)).1 ++ [10]) f2
          (by simp only [List.length_cons] at hlen hn ⊢; omega)
          (by simp only [List.length_cons] at hlen hfuel ⊢; omega)
          hsafe2
        refine ⟨stE, ?_⟩
        have hbuf : appBuf ++ (partition1 10 (b :: rest)).1 ++ [10] ++ (c :: rest2) =
            appBuf ++ (b :: rest) := by
          conv_rhs => rw [hdec]
          rw [hr]
          simp
        rw [← hbuf]
        exact hrun
    · have hp0 : (partition1 10 (b :: rest)).2.1 = false := by
        cases hb2 : (partition1 10 (b :: rest)).2.1
        · rfl
        · exact absurd hb2 hp
      rw [if_neg hp, if_neg hp]
      obtain ⟨hall, hrest⟩ := partition1_not_found hp0
      rw [hrest]
      refine ⟨⟨MPIState.data, [], cmd, len⟩, ?_⟩
      rw [mpiLoopF_nil, hall]
      simp

/-- Derive `lfSafe` from the no-sentinel / no-trailing-partial-sentinel
hypotheses. -/
theorem lfSafe_of_hyps (s : List Byte)
    (h1 : ¬ (10 :: MPI_INIT) <:+: s)
    (h2 : ¬ [10, 126] <:+ s)
    (h3 : ¬ [10, 126, 36] <:+ s)
    (h4 : ¬ [10, 126, 36, 35] <:+ s) : lfSafe s := by
  intro pre post hsplit hpost
  cases hb : isPrefixB (post.take 4) MPI_INIT
  · rfl
  · exfalso
    rcases post with - | ⟨a, post1⟩
    · exact hpost rfl
    rcases post1 with - | ⟨b, post2⟩
    · -- post = [a]
      simp only [List.take, isPrefixB, MPI_INIT, Bool.and_eq_true, beq_iff_eq] at hb
      obtain ⟨ha, -⟩ := hb
      subst ha
      exact h2 ⟨pre, by rw [hsplit]⟩
    rcases post2 with - | ⟨c, post3⟩
    · -- post = [a, b]
      simp only [List.take, isPrefixB, MPI_INIT, Bool.and_eq_true, beq_iff_eq] at hb
      obtain ⟨ha, hbb, -⟩ := hb
      subst ha
      subst hbb
      exact h3 ⟨pre, by rw [hsplit]⟩
    rcases post3 with - | ⟨d, post4⟩
    · -- post = [a, b, c]
      simp only [List.take, isPrefixB, MPI_INIT, Bool.and_eq_true, beq_iff_eq] at hb
      obtain ⟨ha, hbb, hc, -⟩ := hb
      subst ha
      subst hbb
      subst hc
      exact h4 ⟨pre, by rw [hsplit]⟩
    · -- post has at least four bytes
      simp only [List.take, isPrefixB, MPI_INIT, Bool.and_eq_true, beq_iff_eq] at hb
      obtain ⟨ha, hbb, hc, hd, -⟩ := hb
      subst ha
      subst hbb
      subst hc
      subst hd
      exact h1 ⟨pre, post4, by rw [hsplit]; simp [MPI_INIT]⟩

/-- C6, counterexample: the input `b"\n~"` (a line feed followed by the
first byte of the MPI sentinel) is NOT forwarded in full: only the line
feed is forwarded, the `b"~"` is held back in the MPI buffer.  The input
contains no `b"\n~$#E"` substring, so the claim as stated requires all
of it to be forwarded. -/
theorem claim_C6_counterexample :
    mpi_on_data_received mpiProtoInit [10, 126] =
      some (⟨MPIState.init, [126], [], 0⟩, [MPIEvent.forward [10]]) ∧
    [MPIEvent.forward [10]] ≠ [MPIEvent.forward [10, 126]] := by
  exact ⟨rfl, by decide⟩

/-- C6 (amended): if `s` contains no `b"\n~$#E"` substring AND does not
end with a line feed followed by a nonempty proper prefix of `b"~$#E"`
(such trailing bytes are held back until more data arrives, see the
counterexample), then feeding `s` to a fresh `MPIProtocol` forwards
exactly `s` — in one chunk, unmodified — and fires no other event. -/
theorem claim_C6 (s : List Byte)
    (h1 : ¬ (10 :: MPI_INIT) <:+: s)
    (h2 : ¬ [10, 126] <:+ s)
    (h3 : ¬ [10, 126, 36] <:+ s)
    (h4 : ¬ [10, 126, 36, 35] <:+ s) :
    ∃ stE, mpi_on_data_received mpiProtoInit s =
      some (stE, if s = [] then [] else [MPIEvent.forward s]) := by
  have hsafe := lfSafe_of_hyps s h1 h2 h3 h4
  have hfuel : 2 * s.length + 1 ≤ mpiFuel mpiProtoInit s := by
    unfold mpiFuel mpiProtoInit
    simp only [List.length_nil]
    have h0 : 0 < s.length + 0 + 0 + 2 := by omega
    have hs1 : s.length + 0 + 0 + 2 ≤ (s.length + 0 + 0 + 2) * (s.length + 0 + 0 + 2) :=
      Nat.le_mul_of_pos_left _ h0
    calc 2 * s.length + 1 ≤ 8 * (s.length + 0 + 0 + 2) := by omega
      _ ≤ 8 * ((s.length + 0 + 0 + 2) * (s.length + 0 + 0 + 2)) :=
          Nat.mul_le_mul_left 8 hs1
      _ = 8 * (s.length + 0 + 0 + 2) * (s.length + 0 + 0 + 2) := by
          rw [Nat.mul_assoc]
  obtain ⟨stE, hrun⟩ := mpiLoopF_pass s.length s [] 0 [] (mpiFuel mpiProtoInit s)
    (Nat.le_refl _) hfuel hsafe
  refine ⟨stE, ?_⟩
  unfold mpi_on_data_received
  have hinit : (⟨MPIState.data, [], [], 0⟩ : MPISt) = mpiProtoInit := rfl
  rw [hinit] at hrun
  rw [hrun]
  simp

/-- Witness for C6: `b"hi\n"` satisfies all hypotheses and passes
through in one chunk. -/
theorem claim_C6_witness :
    (¬ (10 :: MPI_INIT) <:+: [104, 105, 10]) ∧
    (¬ [10, 126] <:+ [104, 105, 10]) ∧
    (¬ [10, 126, 36] <:+ [104, 105, 10]) ∧
    (¬ [10, 126, 36, 35] <:+ [104, 105, 10]) ∧
    (∃ stE, mpi_on_data_received mpiProtoInit [104, 105, 10] =
      some (stE,
        if ([104, 105, 10] : List Byte) = [] then [] else [MPIEvent.forward [104, 105, 10]])) :=
  ⟨by decide, by decide, by decide, by decide,
    claim_C6 [104, 105, 10] (by decide) (by decide) (by decide) (by decide)⟩

/-! ## MCCP mix-in (`mccp.py`, class `MCCPMixIn`)

Only the uncompressed phase of `on_data_received` is embedded: the zlib
decompression applied once `_compression_enabled` is set is outside the
model, so the loop returns as soon as compression becomes enabled,
yielding the chunks forwarded so far, the unconsumed buffer and the
`_compression_enabled` flag.  `bytes.find` is modelled by `bfind`
(`none` for `-1`).  The loop consumes at least one byte per iteration,
so fuel `buffer.length` is exact; `none` marks fuel exhaustion. -/

/-- `MCCP_ENABLED_RESPONSES[0] = IAC + SB + MCCP1 + WILL + SE`. -/
def MCCP_V1_RESPONSE : List Byte := [255, 250, 85, 251, 240]

/-- `MCCP_ENABLED_RESPONSES[1] = IAC + SB + MCCP2 + IAC + SE`. -/
def MCCP_V2_RESPONSE : List Byte := [255, 250, 86, 255, 240]

/-- `bytes.find(bytes([t]))`: index of the first occurrence. -/
def bfind (t : Byte) : List Byte → Option Nat
  | [] => Option.none
  | x :: rest => if x = t then some 0 else (bfind t rest).map (fun i => i + 1)

/-- The `while input_buffer` loop of `MCCPMixIn.on_data_received` in the
uncompressed phase.  Returns the forwarded chunks in order, the
remaining buffer, and whether compression was enabled. -/
def mccpLoopF : Nat → Option Nat → List Byte →
    Option (List (List Byte) × List Byte × Bool)
  | _, _, [] => some ([], [], false)
  | 0, _, _ :: _ => Option.none
  | fuel + 1, version, b :: rest =>
    match version, bfind 255 (b :: rest) with
    | some v, some i =>
      if 0 < i then
        match mccpLoopF fuel (some v) ((b :: rest).drop i) with
        | some (fwd, buf, en) => some ((b :: rest).take i :: fwd, buf, en)
        | Option.none => Option.none
      else if (b :: rest) = [255] then
        some ([], [255], false)
      else if isPrefixB [255, 250] (b :: rest) then
        match bfind 240 (b :: rest) with
        | Option.none => some ([], b :: rest, false)
        | some k =>
          if isPrefixB MCCP_V1_RESPONSE (b :: rest) ||
              isPrefixB MCCP_V2_RESPONSE (b :: rest) then
            some ([], (b :: rest).drop (k + 1), true)
          else
            match mccpLoopF fuel (some v) ((b :: rest).drop (k + 1)) with
            | some (fwd, buf, en) => some ((b :: rest).take (k + 1) :: fwd, buf, en)
            | Option.none => Option.none
      else
        match mccpLoopF fuel (some v) ((b :: rest).drop 2) with
        | some (fwd, buf, en) => some ((b :: rest).take 2 :: fwd, buf, en)
        | Option.none => Option.none
    | _, _ => some ([b :: rest], [], false)

/-- `MCCPMixIn.on_data_received` in the uncompressed phase:
`input_buffer = self._compressed_input_buffer + data`, then the loop. -/
def mccp_on_data_received (version : Option Nat) (buffer data : List Byte) :
    Option (List (List Byte) × List Byte × Bool) :=
  mccpLoopF (buffer ++ data).length version (buffer ++ data)

theorem bfind_first (t : Byte) :
    ∀ (m : List Byte), (∀ x ∈ m, x ≠ t) → ∀ l, bfind t (m ++ t :: l) = some m.length := by
  intro m
  induction m with
  | nil => intro _ l; simp [bfind]
  | cons x xs ih =>
    intro hm l
    have hx : x ≠ t := hm x (by simp)
    simp only [List.cons_append, bfind, if_neg hx, List.append_eq]
    rw [ih (fun y hy => hm y (by simp [hy])) l]
    simp

theorem isPrefixB_self_append : ∀ (p l : List Byte), isPrefixB p (p ++ l) = true := by
  intro p
  induction p with
  | nil => intro l; rfl
  | cons x xs ih => intro l; simp [isPrefixB, ih l]

theorem mccpLoopF_fuel :
    ∀ fuel fuel' (version : Option Nat) (data : List Byte),
      data.length ≤ fuel → data.length ≤ fuel' →
      mccpLoopF fuel version data = mccpLoopF fuel' version data := by
  intro fuel
  induction fuel with
  | zero =>
    intro fuel' v data h _
    have hd : data = [] := List.length_eq_zero.mp (Nat.le_zero.mp h)
    subst hd
    cases fuel' <;> rfl
  | succ f ih =>
    intro fuel' v data h h'
    rcases data with - | ⟨b, rest⟩
    · cases fuel' <;> rfl
    rcases fuel' with - | f'
    · simp only [List.length_cons] at h'
      omega
    simp only [List.length_cons] at h h'
    simp only [mccpLoopF]
    rcases v with - | vv
    · rfl
    rcases hfind : bfind 255 (b :: rest) with - | i
    · rfl
    · dsimp only
      by_cases hi : 0 < i
      · rw [if_pos hi, if_pos hi]
        have hd : ((b :: rest).drop i).length ≤ f ∧ ((b :: rest).drop i).length ≤ f' := by
          rw [List.length_drop]
          simp only [List.length_cons]
          omega
        rw [ih f' (some vv) ((b :: rest).drop i) hd.1 hd.2]
      · rw [if_neg hi, if_neg hi]
        by_cases h255 : (b :: rest) = [255]
        · rw [if_pos h255, if_pos h255]
        · rw [if_neg h255, if_neg h255]
          by_cases hsb : isPrefixB [255, 250] (b :: rest) = true
          · rw [if_pos hsb, if_pos hsb]
            rcases hse : bfind 240 (b :: rest) with - | k
            · rfl
            · dsimp only
              by_cases hsent : (isPrefixB MCCP_V1_RESPONSE (b :: rest) ||
                  isPrefixB MCCP_V2_RESPONSE (b :: rest)) = true
              · rw [if_pos hsent, if_pos hsent]
              · rw [if_neg hsent, if_neg hsent]
                have hd : ((b :: rest).drop (k + 1)).length ≤ f ∧
                    ((b :: rest).drop (k + 1)).length ≤ f' := by
                  rw [List.length_drop]
                  simp only [List.length_cons]
                  omega
                rw [ih f' (some vv) ((b :: rest).drop (k + 1)) hd.1 hd.2]
          · rw [if_neg hsb, if_neg hsb]
            have hd : ((b :: rest).drop 2).length ≤ f ∧ ((b :: rest).drop 2).length ≤ f' := by
              rw [List.length_drop]
              simp only [List.length_cons]
              omega
            rw [ih f' (some vv) ((b :: rest).drop 2) hd.1 hd.2]

/-- C7: with `_mccp_version` set and an empty stored buffer, (1) a
buffer beginning with the MCCP1 activation sentinel `IAC SB 0x55 WILL
SE` consumes exactly the sentinel, forwards nothing of it, and enables
compression (the decompressor instantiation is outside the model); (2)
likewise for the MCCP2 sentinel `IAC SB 0x56 IAC SE`; (3) any other
complete subnegotiation `IAC SB m IAC SE` (interior free of `SE` bytes
and not completing an activation sentinel) is forwarded upward unchanged
as one chunk, processing then continuing on the remainder. -/
theorem claim_C7 (v : Nat) (m rest : List Byte)
    (hm : ∀ x ∈ m, x ≠ 240) (hm86 : m ≠ [86]) :
    mccp_on_data_received (some v) [] (MCCP_V1_RESPONSE ++ rest) = some ([], rest, true) ∧
    mccp_on_data_received (some v) [] (MCCP_V2_RESPONSE ++ rest) = some ([], rest, true) ∧
    (∀ res : List (List Byte) × List Byte × Bool,
      mccpLoopF rest.length (some v) rest = some res →
      mccp_on_data_received (some v) [] (([255, 250] ++ m ++ [255, 240]) ++ rest) =
        some (([255, 250] ++ m ++ [255, 240]) :: res.1, res.2.1, res.2.2)) := by
  refine ⟨rfl, rfl, ?_⟩
  intro res hres
  obtain ⟨fwd, buf, en⟩ := res
  unfold mccp_on_data_received
  have hdata : ([] : List Byte) ++ (([255, 250] ++ m ++ [255, 240]) ++ rest) =
      255 :: 250 :: (m ++ 255 :: 240 :: rest) := by simp
  rw [hdata]
  have hlen : (255 :: 250 :: (m ++ 255 :: 240 :: rest)).length =
      m.length + rest.length + 3 + 1 := by
    simp [List.length_cons, List.length_append]
    try omega
  rw [hlen]
  simp only [mccpLoopF]
  have hf : bfind 255 (255 :: 250 :: (m ++ 255 :: 240 :: rest)) = some 0 := rfl
  rw [hf]
  dsimp only
  rw [if_neg (by omega : ¬ (0 : Nat) < 0)]
  rw [if_neg (fun he => by
    have := congrArg List.length he
    simp at this)]
  have hpre : isPrefixB [255, 250] (255 :: 250 :: (m ++ 255 :: 240 :: rest)) = true := by rfl
  rw [if_pos hpre]
  have h240 : bfind 240 (255 :: 250 :: (m ++ 255 :: 240 :: rest)) = some (m.length + 3) := by
    have hsplit : 255 :: 250 :: (m ++ 255 :: 240 :: rest) =
        (255 :: 250 :: (m ++ [255])) ++ 240 :: rest := by simp
    rw [hsplit]
    rw [bfind_first 240 (255 :: 250 :: (m ++ [255])) ?_ rest]
    · simp [List.length_append]
      try omega
    · intro x hx
      simp only [List.mem_cons, List.mem_append, List.mem_singleton,
        List.not_mem_nil, or_false] at hx
      rcases hx with rfl | rfl | hx | rfl
      · decide
      · decide
      · exact hm x hx
      · decide
  rw [h240]
  dsimp only
  have hs1 : isPrefixB MCCP_V1_RESPONSE (255 :: 250 :: (m ++ 255 :: 240 :: rest)) = false := by
    rcases m with - | ⟨a, m1⟩
    · rfl
    rcases m1 with - | ⟨b2, m2⟩
    · simp [isPrefixB, MCCP_V1_RESPONSE]
    rcases m2 with - | ⟨c, m3⟩
    · simp [isPrefixB, MCCP_V1_RESPONSE]
    · have hc : ((240 : Byte) == c) = false :=
        beq_eq_false_iff_ne.mpr (Ne.symm (hm c (by simp)))
      simp [isPrefixB, MCCP_V1_RESPONSE, hc]
  have hs2 : isPrefixB MCCP_V2_RESPONSE (255 :: 250 :: (m ++ 255 :: 240 :: rest)) = false := by
    rcases m with - | ⟨a, m1⟩
    · rfl
    rcases m1 with - | ⟨b2, m2⟩
    · have ha : (86 : Byte) ≠ a := fun h => hm86 (by rw [← h])
      have ha' : ((86 : Byte) == a) = false := beq_eq_false_iff_ne.mpr ha
      simp [isPrefixB, MCCP_V2_RESPONSE, ha']
    rcases m2 with - | ⟨c, m3⟩
    · simp [isPrefixB, MCCP_V2_RESPONSE]
    · have hc : ((240 : Byte) == c) = false :=
        beq_eq_false_iff_ne.mpr (Ne.symm (hm c (by simp)))
      simp [isPrefixB, MCCP_V2_RESPONSE, hc]
  rw [hs1, hs2]
  rw [if_neg (by simp)]
  have hW : 255 :: 250 :: (m ++ 255 :: 240 :: rest) =
      ([255, 250] ++ m ++ [255, 240]) ++ rest := by simp
  have hlenW : ([255, 250] ++ m ++ [255, 240] : List Byte).length = m.length + 3 + 1 := by
    simp [List.length_append]
    try omega
  rw [hW, ← hlenW, List.take_left, List.drop_left]
  rw [mccpLoopF_fuel (m.length + rest.length + 3) rest.length (some v) rest
    (by omega) (Nat.le_refl _)]
  rw [hres]

/-- Witness for C7: version 2 negotiated, the non-sentinel
subnegotiation `IAC SB 0x5A IAC SE` standing alone is forwarded
unchanged. -/
theorem claim_C7_witness :
    (∀ x ∈ ([90] : List Byte), x ≠ 240) ∧ (([90] : List Byte) ≠ [86]) ∧
    mccp_on_data_received (some 2) [] (MCCP_V1_RESPONSE ++ []) = some ([], [], true) ∧
    mccp_on_data_received (some 2) [] (([255, 250] ++ [90] ++ [255, 240]) ++ []) =
      some ([[255, 250] ++ [90] ++ [255, 240]], [], false) := by
  refine ⟨by decide, by decide, (claim_C7 2 [90] [] (by decide) (by decide)).1, ?_⟩
  exact (claim_C7 2 [90] [] (by decide) (by decide)).2.2 ([], [], false) rfl

end Mudproto
